import Mathlib

set_option maxHeartbeats 1000000

/-!
Shallow embedding of `calculate_map` from `luminoth/eval.py` (lines 171-306)
and verification of its specified properties.

Conventions of the embedding:
* numpy float arrays are `List ℚ`; results of float divisions that can hit a
  zero denominator are `FVal` (a finite rational, `nan`, or a signed infinity),
  mirroring IEEE semantics (`0/0 = nan`, `x/0 = ±inf`, comparisons with `nan`
  are false, `np.max` propagates `nan`).
* an uncaught Python exception (numpy `ValueError` / `IndexError`) is `none`;
  normal completion is `some`.
* the external collaborator `bbox_overlaps` is a parameter `ov`.
* `np.argsort` is not stable on ties; the embedding fixes the stable
  descending order (ties keep the smaller original index first).
-/

/-- Axis-aligned bounding box: 4 rational coordinates. -/
abbrev Box : Type := ℚ × ℚ × ℚ × ℚ

/-- Value of a numpy float computation: a finite rational, `nan` (from `0/0`),
or a signed infinity (from `x/0`, `x ≠ 0`). -/
inductive FVal : Type where
  | nan : FVal
  | inf : FVal
  | ninf : FVal
  | val : ℚ → FVal
deriving DecidableEq

/-- Float division `a / b` with IEEE semantics at a zero denominator. -/
def fdiv (a b : ℚ) : FVal :=
  if b = 0 then (if a = 0 then FVal.nan else if 0 < a then FVal.inf else FVal.ninf)
  else FVal.val (a / b)

/-- Division of an already-computed float by a rational (`prec / 11`,
the division inside `np.mean`). -/
def FVal.divF : FVal → ℚ → FVal
  | FVal.nan, _ => FVal.nan
  | FVal.inf, b => if b < 0 then FVal.ninf else FVal.inf
  | FVal.ninf, b => if b < 0 then FVal.inf else FVal.ninf
  | FVal.val a, b => fdiv a b

/-- Float addition (`ap += prec / 11`, the accumulation inside `np.mean`). -/
def FVal.add : FVal → FVal → FVal
  | FVal.nan, _ => FVal.nan
  | _, FVal.nan => FVal.nan
  | FVal.inf, FVal.ninf => FVal.nan
  | FVal.ninf, FVal.inf => FVal.nan
  | FVal.inf, _ => FVal.inf
  | _, FVal.inf => FVal.inf
  | FVal.ninf, _ => FVal.ninf
  | _, FVal.ninf => FVal.ninf
  | FVal.val a, FVal.val b => FVal.val (a + b)

/-- Elementwise `v >= t` against a finite threshold; `nan` compares false. -/
def FVal.fge : FVal → ℚ → Bool
  | FVal.nan, _ => false
  | FVal.inf, _ => true
  | FVal.ninf, _ => false
  | FVal.val a, t => decide (t ≤ a)

/-- Elementwise `v > t` against a finite threshold; `nan` compares false. -/
def FVal.fgt : FVal → ℚ → Bool
  | FVal.nan, _ => false
  | FVal.inf, _ => true
  | FVal.ninf, _ => false
  | FVal.val a, t => decide (t < a)

/-- Binary maximum with numpy reduction semantics: `nan` propagates. -/
def FVal.fmax : FVal → FVal → FVal
  | FVal.nan, _ => FVal.nan
  | _, FVal.nan => FVal.nan
  | FVal.inf, _ => FVal.inf
  | _, FVal.inf => FVal.inf
  | FVal.ninf, w => w
  | v, FVal.ninf => v
  | FVal.val a, FVal.val b => FVal.val (max a b)

/-- `np.max` over an array: raises `ValueError` (here `none`) on an empty
array. -/
def npMax : List FVal → Option FVal
  | [] => none
  | v :: rest => some (rest.foldl FVal.fmax v)

/-- `np.cumsum`: entry `i` is the sum of the first `i + 1` elements. -/
def cumsum (xs : List ℚ) : List ℚ :=
  (List.range xs.length).map (fun i => (xs.take (i + 1)).sum)

/-- Insert index `i` into an index list already ordered by descending score,
after every index whose score is `≥` its own (stable for ties). -/
def insertDesc (scores : List ℚ) (i : ℕ) : List ℕ → List ℕ
  | [] => [i]
  | j :: rest =>
    if scores.getD j 0 < scores.getD i 0 then i :: j :: rest
    else j :: insertDesc scores i rest

/-- `np.argsort(-scores)`: the indices of `scores` ordered by descending
score.  numpy's order on exact ties is unspecified; the embedding fixes the
stable order (ties keep the smaller original index first). -/
def argsortDesc (scores : List ℚ) : List ℕ :=
  (List.range scores.length).foldl (fun acc i => insertDesc scores i acc) []

/-- `np.argmax`: index of the first maximal element of a row (`0` on an empty
row; the source only calls it on rows of positive length). -/
def argmaxIdx (row : List ℚ) : ℕ :=
  (List.range row.length).foldl
    (fun best i => if row.getD best 0 < row.getD i 0 then i else best) 0

/-- State of the greedy assignment loop: the `is_detected` 0/1 array over
ground truths and the `tp_fp_labels` 0/1 array over detections. -/
structure MatchState where
  isDetected : List ℚ
  labels : List ℚ
deriving DecidableEq

/-- One iteration of the greedy loop over `sorted_indices` (lines 252-259):
`gt_match = argmax(ious[bbox_idx])`; on `ious[bbox_idx, gt_match] >=
iou_threshold` and `not is_detected[gt_match]`, record a true positive at
position `bbox_idx` and claim `gt_match`. -/
def greedyStep (ious : List (List ℚ)) (iouThreshold : ℚ)
    (st : MatchState) (bboxIdx : ℕ) : MatchState :=
  let row := ious.getD bboxIdx []
  let gtMatch := argmaxIdx row
  if iouThreshold ≤ row.getD gtMatch 0 ∧ st.isDetected.getD gtMatch 0 = 0 then
    { isDetected := st.isDetected.set gtMatch 1, labels := st.labels.set bboxIdx 1 }
  else st

/-- The pairwise IoU matrix `ious = bbox_overlaps(cls_bboxes, cls_gt_bboxes)`;
the overlap computation itself is the external collaborator `ov`. -/
def iouMatrix (ov : Box → Box → ℚ) (clsBboxes clsGtBboxes : List Box) :
    List (List ℚ) :=
  clsBboxes.map (fun b => clsGtBboxes.map (fun g => ov b g))

/-- Per (class, image) matching of `calculate_map` (lines 237-263): sort the
class's detections by descending score, greedily assign them to ground truths,
and emit the pair `(tp_fp_labels, cls_scores[sorted_indices])`.  As in the
source, the emitted labels are indexed by the *original* detection position
while the emitted scores are in descending-score order. -/
def matchImageClass (ov : Box → Box → ℚ) (iouThreshold : ℚ)
    (clsBboxes : List Box) (clsScores : List ℚ) (clsGtBboxes : List Box) :
    List ℚ × List ℚ :=
  let sortedIndices := argsortDesc clsScores
  let numGt := clsGtBboxes.length
  let labels0 : List ℚ := List.replicate sortedIndices.length 0
  let sortedScores := sortedIndices.map (fun i => clsScores.getD i 0)
  if numGt = 0 then (labels0, sortedScores)
  else
    let ious := iouMatrix ov clsBboxes clsGtBboxes
    let final := sortedIndices.foldl (greedyStep ious iouThreshold)
      { isDetected := List.replicate numGt 0, labels := labels0 }
    (final.labels, sortedScores)

/-- Invariant of the greedy assignment loop: every recorded true positive
points at a claimed ground truth, and no two distinct recorded true
positives point at the same ground-truth index. -/
def GreedyInv (ious : List (List ℚ)) (st : MatchState) : Prop :=
  (∀ i : ℕ, st.labels.getD i 0 ≠ 0 →
      st.labels.getD i 0 = 1
        ∧ st.isDetected.getD (argmaxIdx (ious.getD i [])) 0 = 1)
    ∧ ∀ i j : ℕ, st.labels.getD i 0 ≠ 0 → st.labels.getD j 0 ≠ 0 →
        argmaxIdx (ious.getD i []) = argmaxIdx (ious.getD j []) → i = j

/-- Boolean-mask selection `xs[mask]`; numpy raises `IndexError` (here
`none`) when the mask length differs from the array length. -/
def maskSelect {α : Type} (mask : List Bool) (xs : List α) : Option (List α) :=
  if mask.length = xs.length then
    some (((mask.zip xs).filter (fun p => p.1)).map (fun p => p.2))
  else none

/-- One entry of `output_per_batch` (one image of the evaluation run).  The
`filenames` key is never read by `calculate_map` and is omitted. -/
structure Batch where
  bboxes : List Box
  classes : List ℤ
  scores : List ℚ
  gtBboxes : List Box
  gtClasses : List ℤ
deriving DecidableEq

/-- Exception-aware fold: a Python loop whose body may raise. -/
def foldlMO {σ α : Type} (f : σ → α → Option σ) : σ → List α → Option σ
  | st, [] => some st
  | st, x :: xs =>
    match f st x with
    | none => none
    | some st1 => foldlMO f st1 xs

/-- Exception-aware map: a Python loop collecting one result per element. -/
def mapMO {α β : Type} (f : α → Option β) : List α → Option (List β)
  | [] => some []
  | x :: xs =>
    match f x with
    | none => none
    | some y =>
      match mapMO f xs with
      | none => none
      | some ys => some (y :: ys)

/-- Per-class selection and matching for one image (lines 230-263): select
the class's detections and ground truths by boolean masks, then match.
Returns the emitted `(tp_fp_labels, sorted scores)` pair together with this
image's `num_gt` for the class. -/
def processBatchClass (ov : Box → Box → ℚ) (iouThreshold : ℚ) (b : Batch)
    (cls : ℕ) : Option ((List ℚ × List ℚ) × ℕ) :=
  let detMask := b.classes.map (fun l => decide (l = (cls : ℤ)))
  let gtMask := b.gtClasses.map (fun l => decide (l = (cls : ℤ)))
  match maskSelect detMask b.bboxes with
  | none => none
  | some clsBboxes =>
    match maskSelect detMask b.scores with
    | none => none
    | some clsScores =>
      match maskSelect gtMask b.gtBboxes with
      | none => none
      | some clsGtBboxes =>
        some (matchImageClass ov iouThreshold clsBboxes clsScores clsGtBboxes,
          clsGtBboxes.length)

/-- The two per-class accumulators of the first phase:
`tp_fp_labels_by_class` and `num_examples_per_class` (lines 215-216). -/
structure AccState where
  pairsByClass : List (List (List ℚ × List ℚ))
  numExamplesPerClass : List ℕ
deriving DecidableEq

/-- The accumulators before the batch loop (lines 215-216). -/
def initAcc (numClasses : ℕ) : AccState :=
  { pairsByClass := List.replicate numClasses []
    numExamplesPerClass := List.replicate numClasses 0 }

/-- One class of one image folded into the accumulators: run
`processBatchClass` and append its results to the class's slots (the
`.append(...)` and `+= num_gt` statements of lines 235, 243-245, 261-263). -/
def accClsStep (ov : Box → Box → ℚ) (iouThreshold : ℚ) (b : Batch)
    (acc : AccState) (cls : ℕ) : Option AccState :=
  match processBatchClass ov iouThreshold b cls with
  | none => none
  | some r =>
    some { pairsByClass :=
             acc.pairsByClass.set cls ((acc.pairsByClass.getD cls []) ++ [r.1])
           numExamplesPerClass :=
             acc.numExamplesPerClass.set cls
               ((acc.numExamplesPerClass.getD cls 0) + r.2) }

/-- Folds one image into the accumulators: the `for cls in
range(num_classes)` loop (lines 229-263). -/
def accBatch (ov : Box → Box → ℚ) (iouThreshold : ℚ) (numClasses : ℕ)
    (st : AccState) (b : Batch) : Option AccState :=
  foldlMO (accClsStep ov iouThreshold b) st (List.range numClasses)

/-- The first phase of `calculate_map` (lines 218-263): the loop over all
batches. -/
def accumulateBatches (ov : Box → Box → ℚ) (iouThreshold : ℚ)
    (numClasses : ℕ) (batches : List Batch) : Option AccState :=
  foldlMO (accBatch ov iouThreshold numClasses) (initAcc numClasses) batches

/-- `labels = np.concatenate(labels)` after `labels, scores =
zip(*tp_fp_labels)` (lines 272-273). -/
def flatLabels (pairs : List (List ℚ × List ℚ)) : List ℚ :=
  (pairs.map (fun p => p.1)).flatten

/-- `scores = np.concatenate(scores)` (line 274). -/
def flatScores (pairs : List (List ℚ × List ℚ)) : List ℚ :=
  (pairs.map (fun p => p.2)).flatten

/-- `true_positives = labels[sorted_indices]` with `sorted_indices =
np.argsort(-scores)` (lines 277-278). -/
def rankedTP (pairs : List (List ℚ × List ℚ)) : List ℚ :=
  (argsortDesc (flatScores pairs)).map (fun i => (flatLabels pairs).getD i 0)

/-- `cum_true_positives = np.cumsum(true_positives)` (line 281). -/
def cumTP (pairs : List (List ℚ × List ℚ)) : List ℚ :=
  cumsum (rankedTP pairs)

/-- `cum_false_positives = np.cumsum(false_positives)` with
`false_positives = 1 - true_positives` (lines 279, 282). -/
def cumFP (pairs : List (List ℚ × List ℚ)) : List ℚ :=
  cumsum ((rankedTP pairs).map (fun x => 1 - x))

/-- `recall = cum_true_positives.astype(float) / num_examples` (line 284). -/
def recallOf (numExamples : ℕ) (pairs : List (List ℚ × List ℚ)) : List FVal :=
  (cumTP pairs).map (fun tp => fdiv tp (numExamples : ℚ))

/-- `precision = np.divide(cum_true_positives, cum_true_positives +
cum_false_positives)` (lines 285-288). -/
def precisionOf (pairs : List (List ℚ × List ℚ)) : List FVal :=
  ((cumTP pairs).zip (cumFP pairs)).map (fun p => fdiv p.1 (p.1 + p.2))

/-- The 11 recall thresholds `np.linspace(0, 1, 11)` (line 294). -/
def recallThresholds : List ℚ :=
  (List.range 11).map (fun k => (k : ℚ) / 10)

/-- One threshold iteration of the AP loop (lines 294-300): skip the
threshold when `np.any(recall >= t)` is false, otherwise add
`np.max(precision[recall > t]) / 11`; `none` is the `ValueError` numpy
raises when that maximum is taken over an empty slice. -/
def apStep (precision recl : List FVal) (acc : Option FVal) (t : ℚ) :
    Option FVal :=
  match acc with
  | none => none
  | some ap =>
    if recl.any (fun v => v.fge t) then
      match npMax (((precision.zip recl).filter
          (fun p => p.2.fgt t)).map (fun p => p.1)) with
      | none => none
      | some prec => some (ap.add (prec.divF 11))
    else some ap

/-- AP of one class: 11-point interpolated integration of the PR curve
(lines 293-300), starting from `ap = 0`. -/
def apIntegrate (precision recl : List FVal) : Option FVal :=
  recallThresholds.foldl (apStep precision recl) (some (FVal.val 0))

/-- The per-class AP computation (lines 267-302).  `zip(*tp_fp_labels)`
raises `ValueError` on an empty pair list (`none`); otherwise rank, take
cumulative counts, build the PR curve and integrate it. -/
def perClassAP (numExamples : ℕ) (pairs : List (List ℚ × List ℚ)) :
    Option FVal :=
  match pairs with
  | [] => none
  | _ :: _ => apIntegrate (precisionOf pairs) (recallOf numExamples pairs)

/-- `np.mean`: the sum divided by the length; on an empty array the result
is `0/0 = nan` (numpy warns but does not raise). -/
def npMean (xs : List FVal) : FVal :=
  (xs.foldl FVal.add (FVal.val 0)).divF (xs.length : ℚ)

/-- Shallow embedding of `calculate_map(output_per_batch, num_classes,
iou_threshold=0.5)` (lines 171-306), parameterised by the external overlap
primitive `ov` (`bbox_overlaps`).  The returned pair `(mean_ap,
ap_per_class)` is the value of the two final assignments (lines 302, 305);
the source function then executes `from IPython import embed;
embed(display_banner=False)` and falls off the end without a `return`
statement. -/
def calculateMap (ov : Box → Box → ℚ) (outputPerBatch : List Batch)
    (numClasses : ℕ) (iouThreshold : ℚ) : Option (FVal × List FVal) :=
  match accumulateBatches ov iouThreshold numClasses outputPerBatch with
  | none => none
  | some st =>
    match mapMO
        (fun cls => perClassAP (st.numExamplesPerClass.getD cls 0)
          (st.pairsByClass.getD cls []))
        (List.range numClasses) with
    | none => none
    | some apPerClass => some (npMean apPerClass, apPerClass)

/-- A concrete external overlap function: IoU `1` for identical boxes and
`0` otherwise. -/
def ovEq : Box → Box → ℚ := fun a b => if a = b then 1 else 0

/-- A concrete external overlap function: constant IoU `3/10` (the overlap
of the spec's scenario B). -/
def ovThree : Box → Box → ℚ := fun _ _ => 3 / 10

/-- A concrete box. -/
def boxA : Box := (0, 0, 1, 1)

/-- A concrete box distinct from `boxA`. -/
def boxB : Box := (5, 5, 6, 6)

/-- A concrete box distinct from `boxA` and `boxB`. -/
def boxC : Box := (9, 9, 12, 12)

/-- The proposition that a numpy value is a finite number in `[0, 1]`. -/
def FVal.inUnit (v : FVal) : Prop :=
  ∃ q : ℚ, v = FVal.val q ∧ 0 ≤ q ∧ q ≤ 1

/-- Append one extra detection (box, class label, score) to an image. -/
def extendBatch (b : Batch) (box : Box) (lbl : ℤ) (s : ℚ) : Batch :=
  { b with
    bboxes := b.bboxes ++ [box]
    classes := b.classes ++ [lbl]
    scores := b.scores ++ [s] }

/-- Concrete image: one class-0 detection of score 9/10 and one class-0
ground truth on a different box. -/
def batchB : Batch :=
  { bboxes := [boxA], classes := [0], scores := [9/10]
    gtBboxes := [boxB], gtClasses := [0] }

/-- Concrete image: one class-0 detection of score 9/10 exactly matching the
first of three class-0 ground truths. -/
def batchThreeGt : Batch :=
  { bboxes := [boxA], classes := [0], scores := [9/10]
    gtBboxes := [boxA, boxB, boxC], gtClasses := [0, 0, 0] }

/-- Concrete image: one detection carrying the class label 5 (out of range
for `num_classes = 1`), and one class-0 ground truth. -/
def batchOutOfRange : Batch :=
  { bboxes := [boxA], classes := [5], scores := [9/10]
    gtBboxes := [boxB], gtClasses := [0] }

/- ---------------------------------------------------------------------- -/
/- List-level helper lemmas.                                               -/
/- ---------------------------------------------------------------------- -/

theorem getD_set_self {α : Type} (l : List α) (i : ℕ) (x d : α)
    (h : i < l.length) : (l.set i x).getD i d = x := by
  simp [List.getD_eq_getElem?_getD, List.getElem?_set, h]

theorem getD_set_ne {α : Type} (l : List α) (i j : ℕ) (x d : α)
    (h : i ≠ j) : (l.set i x).getD j d = l.getD j d := by
  simp [List.getD_eq_getElem?_getD, List.getElem?_set, h]

theorem getD_eq_or_mem {α : Type} (l : List α) (i : ℕ) (d : α) :
    l.getD i d = d ∨ l.getD i d ∈ l := by
  rw [List.getD_eq_getElem?_getD]
  cases h : l[i]? with
  | none => left; rfl
  | some a =>
    right
    simpa using List.getElem?_mem h

theorem getD_of_length_le {α : Type} (l : List α) (i : ℕ) (d : α)
    (h : l.length ≤ i) : l.getD i d = d := by
  rw [List.getD_eq_getElem?_getD, List.getElem?_eq_none h]
  rfl

theorem getD_replicate_elt {α : Type} (n i : ℕ) (a d : α) :
    (List.replicate n a).getD i d = if i < n then a else d := by
  rw [List.getD_eq_getElem?_getD, List.getElem?_replicate]
  split <;> rfl

theorem sum_set_of_lt (l : List ℚ) (i : ℕ) (x : ℚ) (h : i < l.length) :
    (l.set i x).sum = l.sum - l.getD i 0 + x := by
  induction l generalizing i with
  | nil => simp at h
  | cons a t ih =>
    cases i with
    | zero => simp [List.getD_cons_zero]; ring
    | succ k =>
      have hk : k < t.length := by simpa using h
      simp [List.getD_cons_succ, ih k hk]
      ring

theorem sum_le_length_of_le_one (l : List ℚ) (h : ∀ x ∈ l, x ≤ 1) :
    l.sum ≤ (l.length : ℚ) := by
  induction l with
  | nil => simp
  | cons a t ih =>
    simp only [List.sum_cons, List.length_cons]
    push_cast
    have ht := ih (fun x hx => h x (List.mem_cons_of_mem _ hx))
    have ha := h a (List.mem_cons_self _ _)
    linarith

theorem sum_map_one_sub (l : List ℚ) :
    (l.map (fun x => 1 - x)).sum = (l.length : ℚ) - l.sum := by
  induction l with
  | nil => simp
  | cons a t ih =>
    simp only [List.map_cons, List.sum_cons, List.length_cons, ih]
    push_cast
    ring

theorem map_getD_range (l : List ℚ) :
    (List.range l.length).map (fun i => l.getD i 0) = l := by
  induction l with
  | nil => simp
  | cons a t ih =>
    rw [List.length_cons, List.range_succ_eq_map, List.map_cons, List.map_map]
    have h2 : (List.range t.length).map ((fun i => (a :: t).getD i 0) ∘ Nat.succ)
        = (List.range t.length).map (fun i => t.getD i 0) := by
      apply List.map_congr_left
      intro i _
      simp [List.getD_cons_succ]
    rw [h2, ih]
    simp [List.getD_cons_zero]

/- ---------------------------------------------------------------------- -/
/- Lemmas about `cumsum`, `argsortDesc` and `argmaxIdx`.                   -/
/- ---------------------------------------------------------------------- -/

theorem cumsum_length (xs : List ℚ) : (cumsum xs).length = xs.length := by
  simp [cumsum]

theorem cumsum_getD (xs : List ℚ) (i : ℕ) (h : i < xs.length) :
    (cumsum xs).getD i 0 = (xs.take (i + 1)).sum := by
  rw [cumsum, List.getD_eq_getElem?_getD, List.getElem?_map,
    List.getElem?_range h]
  rfl

theorem cumsum_getD_le_sum (xs : List ℚ) (hpos : ∀ x ∈ xs, 0 ≤ x) (i : ℕ) :
    (cumsum xs).getD i 0 ≤ xs.sum := by
  by_cases h : i < xs.length
  · rw [cumsum_getD xs i h]
    conv_rhs => rw [← List.take_append_drop (i + 1) xs]
    rw [List.sum_append]
    have hd : 0 ≤ (xs.drop (i + 1)).sum :=
      List.sum_nonneg (fun x hx => hpos x (List.mem_of_mem_drop hx))
    linarith
  · rw [getD_of_length_le _ _ _ (by rw [cumsum_length]; omega)]
    exact List.sum_nonneg hpos

theorem cumsum_all_zero (xs : List ℚ) (hz : ∀ x ∈ xs, x = 0) (y : ℚ)
    (hy : y ∈ cumsum xs) : y = 0 := by
  rw [cumsum] at hy
  obtain ⟨i, _, rfl⟩ := List.mem_map.mp hy
  exact List.sum_eq_zero (fun x hx => hz x (List.mem_of_mem_take hx))

theorem insertDesc_perm (s : List ℚ) (i : ℕ) (l : List ℕ) :
    (insertDesc s i l).Perm (i :: l) := by
  induction l with
  | nil => simp [insertDesc]
  | cons j rest ih =>
    rw [insertDesc]
    split
    · exact List.Perm.refl _
    · exact (ih.cons j).trans (List.Perm.swap i j rest)

theorem foldl_insertDesc_perm (s : List ℚ) (l : List ℕ) (acc : List ℕ) :
    (l.foldl (fun a i => insertDesc s i a) acc).Perm (l ++ acc) := by
  induction l generalizing acc with
  | nil => simp
  | cons x t ih =>
    simp only [List.foldl_cons, List.cons_append]
    exact (ih (insertDesc s x acc)).trans
      ((List.Perm.append_left t (insertDesc_perm s x acc)).trans List.perm_middle)

theorem argsortDesc_perm (s : List ℚ) :
    (argsortDesc s).Perm (List.range s.length) := by
  simpa [argsortDesc] using foldl_insertDesc_perm s (List.range s.length) []

theorem argsortDesc_length (s : List ℚ) : (argsortDesc s).length = s.length := by
  simpa using (argsortDesc_perm s).length_eq

theorem argsortDesc_mem_lt (s : List ℚ) (i : ℕ) (h : i ∈ argsortDesc s) :
    i < s.length := by
  have := (argsortDesc_perm s).mem_iff.mp h
  simpa using this

theorem argsortDesc_nodup (s : List ℚ) : (argsortDesc s).Nodup :=
  ((argsortDesc_perm s).nodup_iff).mpr (List.nodup_range _)

theorem foldl_best_lt (row : List ℚ) (l : List ℕ) (best : ℕ)
    (hb : best < row.length) (hl : ∀ i ∈ l, i < row.length) :
    l.foldl (fun b i => if row.getD b 0 < row.getD i 0 then i else b) best
      < row.length := by
  induction l generalizing best with
  | nil => simpa
  | cons x t ih =>
    simp only [List.foldl_cons]
    apply ih
    · split
      · exact hl x (List.mem_cons_self _ _)
      · exact hb
    · intro i hi
      exact hl i (List.mem_cons_of_mem _ hi)

theorem argmaxIdx_lt (row : List ℚ) (h : row ≠ []) :
    argmaxIdx row < row.length := by
  have h0 : 0 < row.length := List.length_pos.mpr h
  rw [argmaxIdx]
  exact foldl_best_lt row (List.range row.length) 0 h0 (by simp)

/- ---------------------------------------------------------------------- -/
/- Lemmas about `maskSelect`, `foldlMO`, `mapMO`.                          -/
/- ---------------------------------------------------------------------- -/

theorem zip_filter_fst_length {α : Type} (mask : List Bool) (xs : List α)
    (h : mask.length = xs.length) :
    ((mask.zip xs).filter (fun p => p.1)).length
      = (mask.filter (fun b => b)).length := by
  induction mask generalizing xs with
  | nil => simp
  | cons m mt ih =>
    cases xs with
    | nil => simp at h
    | cons x xt =>
      have ht : mt.length = xt.length := by simpa using h
      simp only [List.zip_cons_cons, List.filter_cons]
      cases m <;> simp [ih xt ht]

theorem maskSelect_some_elim {α : Type} (mask : List Bool) (xs ys : List α)
    (h : maskSelect mask xs = some ys) :
    mask.length = xs.length
      ∧ ys = ((mask.zip xs).filter (fun p => p.1)).map (fun p => p.2)
      ∧ ys.length = (mask.filter (fun b => b)).length := by
  rw [maskSelect] at h
  split at h
  · rename_i hlen
    cases h
    exact ⟨hlen, rfl, by rw [List.length_map]; exact zip_filter_fst_length mask xs hlen⟩
  · cases h

theorem foldlMO_cons_bind {σ α : Type} (f : σ → α → Option σ) (st : σ)
    (x : α) (l : List α) :
    foldlMO f st (x :: l) = (f st x).bind (fun st1 => foldlMO f st1 l) := by
  cases h : f st x <;> simp [foldlMO, h]

theorem foldlMO_append {σ α : Type} (f : σ → α → Option σ) (st : σ)
    (l1 l2 : List α) :
    foldlMO f st (l1 ++ l2)
      = (foldlMO f st l1).bind (fun st1 => foldlMO f st1 l2) := by
  induction l1 generalizing st with
  | nil => simp [foldlMO]
  | cons x t ih =>
    rw [List.cons_append, foldlMO_cons_bind, foldlMO_cons_bind]
    cases h : f st x <;> simp [ih]

theorem foldlMO_congr {σ α : Type} (f g : σ → α → Option σ) (st : σ)
    (l : List α) (h : ∀ s x, x ∈ l → f s x = g s x) :
    foldlMO f st l = foldlMO g st l := by
  induction l generalizing st with
  | nil => rfl
  | cons x t ih =>
    rw [foldlMO_cons_bind, foldlMO_cons_bind,
      h st x (List.mem_cons_self _ _)]
    cases g st x with
    | none => rfl
    | some st1 =>
      exact ih st1 (fun s y hy => h s y (List.mem_cons_of_mem _ hy))

theorem mapMO_cons_bind {α β : Type} (f : α → Option β) (x : α) (l : List α) :
    mapMO f (x :: l)
      = (f x).bind (fun y => (mapMO f l).bind (fun ys => some (y :: ys))) := by
  cases h : f x <;> cases h2 : mapMO f l <;> simp [mapMO, h, h2]

theorem mapMO_some_length {α β : Type} (f : α → Option β) (l : List α)
    (ys : List β) (h : mapMO f l = some ys) : ys.length = l.length := by
  induction l generalizing ys with
  | nil =>
    rw [mapMO] at h
    cases h
    rfl
  | cons x t ih =>
    rw [mapMO_cons_bind] at h
    obtain ⟨y, hy, h2⟩ := Option.bind_eq_some.mp h
    obtain ⟨ys1, hys1, h3⟩ := Option.bind_eq_some.mp h2
    cases h3
    simp [ih ys1 hys1]

theorem mapMO_some_mem {α β : Type} (f : α → Option β) (l : List α)
    (ys : List β) (h : mapMO f l = some ys) (y : β) (hy : y ∈ ys) :
    ∃ x ∈ l, f x = some y := by
  induction l generalizing ys with
  | nil =>
    rw [mapMO] at h
    cases h
    simp at hy
  | cons x t ih =>
    rw [mapMO_cons_bind] at h
    obtain ⟨y1, hy1, h2⟩ := Option.bind_eq_some.mp h
    obtain ⟨ys1, hys1, h3⟩ := Option.bind_eq_some.mp h2
    cases h3
    rcases List.mem_cons.mp hy with h4 | h4
    · exact ⟨x, List.mem_cons_self _ _, h4 ▸ hy1⟩
    · obtain ⟨x1, hx1, hfx1⟩ := ih ys1 hys1 h4
      exact ⟨x1, List.mem_cons_of_mem _ hx1, hfx1⟩

theorem mapMO_some_getElem? {α β : Type} (f : α → Option β) (l : List α)
    (ys : List β) (h : mapMO f l = some ys) (i : ℕ) (hi : i < l.length) :
    ∃ x y, l[i]? = some x ∧ ys[i]? = some y ∧ f x = some y := by
  induction l generalizing ys i with
  | nil => simp at hi
  | cons a t ih =>
    rw [mapMO_cons_bind] at h
    obtain ⟨y1, hy1, h2⟩ := Option.bind_eq_some.mp h
    obtain ⟨ys1, hys1, h3⟩ := Option.bind_eq_some.mp h2
    cases h3
    cases i with
    | zero => exact ⟨a, y1, by simp, by simp, hy1⟩
    | succ k =>
      have hk : k < t.length := by simpa using hi
      obtain ⟨x, y, hx, hy, hf⟩ := ih ys1 hys1 k hk
      exact ⟨x, y, by simpa using hx, by simpa using hy, hf⟩

theorem mapMO_range_getD {β : Type} (f : ℕ → Option β) (n : ℕ) (ys : List β)
    (d : β) (h : mapMO f (List.range n) = some ys) (cls : ℕ) (hcls : cls < n) :
    f cls = some (ys.getD cls d) := by
  obtain ⟨x, y, hx, hy, hf⟩ :=
    mapMO_some_getElem? f _ ys h cls (by simpa using hcls)
  rw [List.getElem?_range hcls] at hx
  cases hx
  rw [List.getD_eq_getElem?_getD, hy]
  exact hf

/- ---------------------------------------------------------------------- -/
/- Lemmas about the greedy matcher.                                        -/
/- ---------------------------------------------------------------------- -/

theorem greedyStep_labels_length (ious : List (List ℚ)) (thr : ℚ)
    (st : MatchState) (b : ℕ) :
    (greedyStep ious thr st b).labels.length = st.labels.length := by
  rw [greedyStep]
  split
  · exact List.length_set _ _ _
  · rfl

theorem greedyStep_isDetected_length (ious : List (List ℚ)) (thr : ℚ)
    (st : MatchState) (b : ℕ) :
    (greedyStep ious thr st b).isDetected.length = st.isDetected.length := by
  rw [greedyStep]
  split
  · exact List.length_set _ _ _
  · rfl

theorem greedy_fold_labels_length (ious : List (List ℚ)) (thr : ℚ)
    (l : List ℕ) (st : MatchState) :
    (l.foldl (greedyStep ious thr) st).labels.length = st.labels.length := by
  induction l generalizing st with
  | nil => rfl
  | cons x t ih =>
    rw [List.foldl_cons, ih, greedyStep_labels_length]

theorem greedyStep_labels_mem (ious : List (List ℚ)) (thr : ℚ)
    (st : MatchState) (b : ℕ)
    (h : ∀ x ∈ st.labels, x = 0 ∨ x = 1) :
    ∀ x ∈ (greedyStep ious thr st b).labels, x = 0 ∨ x = 1 := by
  rw [greedyStep]
  split
  · intro x hx
    rcases List.mem_or_eq_of_mem_set hx with h1 | h1
    · exact h x h1
    · right; exact h1
  · exact h

theorem greedy_fold_labels_mem (ious : List (List ℚ)) (thr : ℚ)
    (l : List ℕ) (st : MatchState)
    (h : ∀ x ∈ st.labels, x = 0 ∨ x = 1) :
    ∀ x ∈ (l.foldl (greedyStep ious thr) st).labels, x = 0 ∨ x = 1 := by
  induction l generalizing st with
  | nil => exact h
  | cons b t ih =>
    rw [List.foldl_cons]
    exact ih _ (greedyStep_labels_mem ious thr st b h)

theorem matchImageClass_branch_pos (ov : Box → Box → ℚ) (thr : ℚ)
    (cb : List Box) (cs : List ℚ) (cg : List Box) (h : cg.length ≠ 0) :
    matchImageClass ov thr cb cs cg =
      (((argsortDesc cs).foldl (greedyStep (iouMatrix ov cb cg) thr)
        { isDetected := List.replicate cg.length 0
          labels := List.replicate (argsortDesc cs).length 0 }).labels,
       (argsortDesc cs).map (fun i => cs.getD i 0)) := by
  rw [matchImageClass]
  simp only [h, if_false, ite_false]

theorem matchImageClass_branch_zero (ov : Box → Box → ℚ) (thr : ℚ)
    (cb : List Box) (cs : List ℚ) (cg : List Box) (h : cg.length = 0) :
    matchImageClass ov thr cb cs cg
      = (List.replicate (argsortDesc cs).length 0,
         (argsortDesc cs).map (fun i => cs.getD i 0)) := by
  rw [matchImageClass]
  simp only [h, if_true, ite_true]

theorem matchImageClass_labels_length (ov : Box → Box → ℚ) (thr : ℚ)
    (cb : List Box) (cs : List ℚ) (cg : List Box) :
    (matchImageClass ov thr cb cs cg).1.length = cs.length := by
  by_cases h : cg.length = 0
  · rw [matchImageClass_branch_zero ov thr cb cs cg h]
    simp [argsortDesc_length]
  · rw [matchImageClass_branch_pos ov thr cb cs cg h]
    simp only
    rw [greedy_fold_labels_length]
    simp [argsortDesc_length]

theorem matchImageClass_scores_length (ov : Box → Box → ℚ) (thr : ℚ)
    (cb : List Box) (cs : List ℚ) (cg : List Box) :
    (matchImageClass ov thr cb cs cg).2.length = cs.length := by
  by_cases h : cg.length = 0
  · rw [matchImageClass_branch_zero ov thr cb cs cg h]
    simp [argsortDesc_length]
  · rw [matchImageClass_branch_pos ov thr cb cs cg h]
    simp [argsortDesc_length]

theorem matchImageClass_labels_mem (ov : Box → Box → ℚ) (thr : ℚ)
    (cb : List Box) (cs : List ℚ) (cg : List Box) :
    ∀ x ∈ (matchImageClass ov thr cb cs cg).1, x = 0 ∨ x = 1 := by
  by_cases h : cg.length = 0
  · rw [matchImageClass_branch_zero ov thr cb cs cg h]
    intro x hx
    left
    exact List.eq_of_mem_replicate hx
  · rw [matchImageClass_branch_pos ov thr cb cs cg h]
    exact greedy_fold_labels_mem _ _ _ _
      (fun x hx => Or.inl (List.eq_of_mem_replicate hx))

theorem matchImageClass_labels_zero_of_no_gt (ov : Box → Box → ℚ) (thr : ℚ)
    (cb : List Box) (cs : List ℚ) (cg : List Box) (h : cg.length = 0) :
    ∀ x ∈ (matchImageClass ov thr cb cs cg).1, x = 0 := by
  rw [matchImageClass_branch_zero ov thr cb cs cg h]
  intro x hx
  exact List.eq_of_mem_replicate hx

theorem getD_set_one_keep (l : List ℚ) (g j : ℕ) (h : l.getD j 0 = 1) :
    (l.set g 1).getD j 0 = 1 := by
  by_cases hj : g = j
  · subst hj
    by_cases hg : g < l.length
    · rw [getD_set_self _ _ _ _ hg]
    · rw [List.set_eq_of_length_le (by omega)]
      exact h
  · rw [getD_set_ne _ _ _ _ _ hj]
    exact h

theorem greedyStep_inv (ious : List (List ℚ)) (thr : ℚ) (numGt : ℕ)
    (hious : ∀ r ∈ ious, r.length = numGt) (hgt : 0 < numGt)
    (st : MatchState) (b : ℕ) (hb : b < ious.length)
    (hdetLen : st.isDetected.length = numGt)
    (hinv : GreedyInv ious st) :
    GreedyInv ious (greedyStep ious thr st b)
      ∧ (greedyStep ious thr st b).isDetected.length = numGt := by
  obtain ⟨hinv1, hinv2⟩ := hinv
  rw [greedyStep]
  split
  · rename_i hcond
    obtain ⟨-, hfree⟩ := hcond
    have hrow : (ious.getD b []) ∈ ious := by
      rw [List.getD_eq_getElem?_getD, List.getElem?_eq_getElem hb]
      exact List.getElem_mem _
    have hrowlen : (ious.getD b []).length = numGt := hious _ hrow
    have hrowne : (ious.getD b []) ≠ [] := by
      intro hc
      rw [hc] at hrowlen
      simp at hrowlen
      omega
    have hglt : argmaxIdx (ious.getD b []) < numGt := by
      have := argmaxIdx_lt _ hrowne
      omega
    constructor
    · constructor
      · -- every true positive points at a claimed ground truth
        intro i hi
        by_cases hib : i = b
        · subst hib
          by_cases hilen : i < st.labels.length
          · refine ⟨getD_set_self _ _ _ _ hilen, ?_⟩
            simp only
            exact getD_set_self _ _ _ _ (by omega)
          · have hle : st.labels.length ≤ i := by omega
            have hno : st.labels.set i 1 = st.labels :=
              List.set_eq_of_length_le hle
            simp only [hno] at hi ⊢
            refine ⟨(hinv1 i hi).1, ?_⟩
            exact getD_set_one_keep _ _ _ (hinv1 i hi).2
        · simp only at hi ⊢
          rw [getD_set_ne _ _ _ _ _ (fun hc => hib hc.symm)] at hi ⊢
          refine ⟨(hinv1 i hi).1, ?_⟩
          exact getD_set_one_keep _ _ _ (hinv1 i hi).2
      · -- injectivity of argmax over true positives
        intro i j hi hj hsame
        simp only at hi hj
        by_cases hib : i = b <;> by_cases hjb : j = b
        · omega
        · -- i = b, j old: the old one would have claimed the same index
          subst hib
          rw [getD_set_ne _ _ _ _ _ (fun hc => hjb hc.symm)] at hj
          have hold := (hinv1 j hj).2
          rw [← hsame] at hold
          rw [hold] at hfree
          norm_num at hfree
        · subst hjb
          rw [getD_set_ne _ _ _ _ _ (fun hc => hib hc.symm)] at hi
          have hold := (hinv1 i hi).2
          rw [hsame] at hold
          rw [hold] at hfree
          norm_num at hfree
        · rw [getD_set_ne _ _ _ _ _ (fun hc => hib hc.symm)] at hi
          rw [getD_set_ne _ _ _ _ _ (fun hc => hjb hc.symm)] at hj
          exact hinv2 i j hi hj hsame
    · simp only
      rw [List.length_set]
      exact hdetLen
  · exact ⟨⟨hinv1, hinv2⟩, hdetLen⟩

theorem greedy_fold_inv (ious : List (List ℚ)) (thr : ℚ) (numGt : ℕ)
    (hious : ∀ r ∈ ious, r.length = numGt) (hgt : 0 < numGt)
    (l : List ℕ) (hl : ∀ b ∈ l, b < ious.length)
    (st : MatchState) (hdetLen : st.isDetected.length = numGt)
    (hinv : GreedyInv ious st) :
    GreedyInv ious (l.foldl (greedyStep ious thr) st) := by
  induction l generalizing st with
  | nil => exact hinv
  | cons b t ih =>
    rw [List.foldl_cons]
    have hstep := greedyStep_inv ious thr numGt hious hgt st b
      (hl b (List.mem_cons_self _ _)) hdetLen hinv
    exact ih (fun x hx => hl x (List.mem_cons_of_mem _ hx)) _ hstep.2 hstep.1

theorem greedy_fold_sum (ious : List (List ℚ)) (thr : ℚ) (numGt : ℕ)
    (hious : ∀ r ∈ ious, r.length = numGt) (hgt : 0 < numGt)
    (l : List ℕ) (hnd : l.Nodup) (hl : ∀ b ∈ l, b < ious.length)
    (st : MatchState)
    (hlab : ∀ b ∈ l, b < st.labels.length)
    (hfresh : ∀ b ∈ l, st.labels.getD b 0 = 0)
    (hdetLen : st.isDetected.length = numGt)
    (hdet01 : ∀ x ∈ st.isDetected, x = 0 ∨ x = 1)
    (hsum : st.labels.sum = st.isDetected.sum) :
    (l.foldl (greedyStep ious thr) st).labels.sum
      = (l.foldl (greedyStep ious thr) st).isDetected.sum
    ∧ (l.foldl (greedyStep ious thr) st).isDetected.length = numGt
    ∧ (∀ x ∈ (l.foldl (greedyStep ious thr) st).isDetected, x = 0 ∨ x = 1) := by
  induction l generalizing st with
  | nil => exact ⟨hsum, hdetLen, hdet01⟩
  | cons b t ih =>
    rw [List.foldl_cons]
    have hbmem : b ∈ b :: t := List.mem_cons_self _ _
    have hbl : b < st.labels.length := hlab b hbmem
    have hnd2 : t.Nodup := hnd.of_cons
    have hbt : b ∉ t := (List.nodup_cons.mp hnd).1
    rw [greedyStep]
    split
    · rename_i hcond
      obtain ⟨-, hfree⟩ := hcond
      have hrow : (ious.getD b []) ∈ ious := by
        rw [List.getD_eq_getElem?_getD, List.getElem?_eq_getElem (hl b hbmem)]
        exact List.getElem_mem _
      have hrowlen : (ious.getD b []).length = numGt := hious _ hrow
      have hrowne : (ious.getD b []) ≠ [] := by
        intro hc
        rw [hc] at hrowlen
        simp at hrowlen
        omega
      have hglt : argmaxIdx (ious.getD b []) < st.isDetected.length := by
        have := argmaxIdx_lt _ hrowne
        omega
      apply ih hnd2 (fun x hx => hl x (List.mem_cons_of_mem _ hx))
      · intro x hx
        have := hlab x (List.mem_cons_of_mem _ hx)
        simpa [List.length_set] using this
      · intro x hx
        have hxb : b ≠ x := fun hc => hbt (hc ▸ hx)
        show (st.labels.set b 1).getD x 0 = 0
        rw [getD_set_ne _ _ _ _ _ hxb]
        exact hfresh x (List.mem_cons_of_mem _ hx)
      · simpa [List.length_set] using hdetLen
      · intro x hx
        simp only at hx
        rcases List.mem_or_eq_of_mem_set hx with h1 | h1
        · exact hdet01 x h1
        · right; exact h1
      · simp only
        rw [sum_set_of_lt _ _ _ hbl, sum_set_of_lt _ _ _ hglt,
          hfresh b hbmem, hfree, hsum]
    · exact ih hnd2 (fun x hx => hl x (List.mem_cons_of_mem _ hx)) st
        (fun x hx => hlab x (List.mem_cons_of_mem _ hx))
        (fun x hx => hfresh x (List.mem_cons_of_mem _ hx))
        hdetLen hdet01 hsum

theorem matchImageClass_labels_sum_le (ov : Box → Box → ℚ) (thr : ℚ)
    (cb : List Box) (cs : List ℚ) (cg : List Box)
    (hlen : cb.length = cs.length) :
    (matchImageClass ov thr cb cs cg).1.sum ≤ (cg.length : ℚ) := by
  by_cases h : cg.length = 0
  · rw [matchImageClass_branch_zero ov thr cb cs cg h]
    have hz : ∀ x ∈ (List.replicate (argsortDesc cs).length (0 : ℚ)), x = 0 :=
      fun x hx => List.eq_of_mem_replicate hx
    rw [List.sum_eq_zero hz]
    positivity
  · rw [matchImageClass_branch_pos ov thr cb cs cg h]
    simp only
    have hious : ∀ r ∈ iouMatrix ov cb cg, r.length = cg.length := by
      intro r hr
      obtain ⟨x, -, rfl⟩ := List.mem_map.mp hr
      simp
    have hgt : 0 < cg.length := Nat.pos_of_ne_zero h
    have hfold := greedy_fold_sum (iouMatrix ov cb cg) thr cg.length hious hgt
      (argsortDesc cs) (argsortDesc_nodup cs)
      (fun b hb => by
        have := argsortDesc_mem_lt cs b hb
        simp only [iouMatrix, List.length_map]
        omega)
      { isDetected := List.replicate cg.length 0
        labels := List.replicate (argsortDesc cs).length 0 }
      (fun b hb => by
        have := argsortDesc_mem_lt cs b hb
        simp only [List.length_replicate]
        rw [argsortDesc_length]
        omega)
      (fun b hb => by
        simp only
        rw [getD_replicate_elt]
        split <;> rfl)
      (by simp)
      (fun x hx => Or.inl (List.eq_of_mem_replicate hx))
      (by simp)
    rw [hfold.1]
    calc (((argsortDesc cs).foldl (greedyStep (iouMatrix ov cb cg) thr)
          { isDetected := List.replicate cg.length 0
            labels := List.replicate (argsortDesc cs).length 0 }).isDetected).sum
        ≤ ((((argsortDesc cs).foldl (greedyStep (iouMatrix ov cb cg) thr)
          { isDetected := List.replicate cg.length 0
            labels := List.replicate (argsortDesc cs).length 0 }).isDetected).length : ℚ) := by
          apply sum_le_length_of_le_one
          intro x hx
          rcases hfold.2.2 x hx with h1 | h1 <;> rw [h1] <;> norm_num
      _ ≤ (cg.length : ℚ) := by
          rw [hfold.2.1]

/- ---------------------------------------------------------------------- -/
/- Characterisation of the accumulation phase.                             -/
/- ---------------------------------------------------------------------- -/

theorem processBatchClass_eq_bind (ov : Box → Box → ℚ) (thr : ℚ) (b : Batch)
    (cls : ℕ) :
    processBatchClass ov thr b cls
      = (maskSelect (b.classes.map (fun l => decide (l = (cls : ℤ)))) b.bboxes).bind
        (fun cb =>
          (maskSelect (b.classes.map (fun l => decide (l = (cls : ℤ)))) b.scores).bind
          (fun cs =>
            (maskSelect (b.gtClasses.map (fun l => decide (l = (cls : ℤ)))) b.gtBboxes).bind
            (fun cg => some (matchImageClass ov thr cb cs cg, cg.length)))) := by
  rw [processBatchClass]
  cases maskSelect (b.classes.map (fun l => decide (l = (cls : ℤ)))) b.bboxes with
  | none => rfl
  | some cb =>
    cases maskSelect (b.classes.map (fun l => decide (l = (cls : ℤ)))) b.scores with
    | none => rfl
    | some cs =>
      cases maskSelect (b.gtClasses.map (fun l => decide (l = (cls : ℤ)))) b.gtBboxes with
      | none => rfl
      | some cg => rfl

theorem processBatchClass_some_elim (ov : Box → Box → ℚ) (thr : ℚ) (b : Batch)
    (cls : ℕ) (r : (List ℚ × List ℚ) × ℕ)
    (h : processBatchClass ov thr b cls = some r) :
    ∃ cb cs cg,
      maskSelect (b.classes.map (fun l => decide (l = (cls : ℤ)))) b.bboxes = some cb
      ∧ maskSelect (b.classes.map (fun l => decide (l = (cls : ℤ)))) b.scores = some cs
      ∧ maskSelect (b.gtClasses.map (fun l => decide (l = (cls : ℤ)))) b.gtBboxes = some cg
      ∧ r = (matchImageClass ov thr cb cs cg, cg.length)
      ∧ cb.length = cs.length := by
  rw [processBatchClass_eq_bind] at h
  obtain ⟨cb, hcb, h2⟩ := Option.bind_eq_some.mp h
  obtain ⟨cs, hcs, h3⟩ := Option.bind_eq_some.mp h2
  obtain ⟨cg, hcg, h4⟩ := Option.bind_eq_some.mp h3
  cases h4
  refine ⟨cb, cs, cg, hcb, hcs, hcg, rfl, ?_⟩
  have h5 := maskSelect_some_elim _ _ _ hcb
  have h6 := maskSelect_some_elim _ _ _ hcs
  rw [h5.2.2, h6.2.2]

/-- Consequences of one successful `processBatchClass` result: the emitted
label/score arrays have equal length, labels are 0/1, the label sum is at
most the image's `num_gt`, and with no ground truths all labels are 0. -/
theorem processBatchClass_pair_facts (ov : Box → Box → ℚ) (thr : ℚ) (b : Batch)
    (cls : ℕ) (r : (List ℚ × List ℚ) × ℕ)
    (h : processBatchClass ov thr b cls = some r) :
    r.1.1.length = r.1.2.length
    ∧ (∀ x ∈ r.1.1, x = 0 ∨ x = 1)
    ∧ r.1.1.sum ≤ (r.2 : ℚ)
    ∧ (r.2 = 0 → ∀ x ∈ r.1.1, x = 0) := by
  obtain ⟨cb, cs, cg, -, -, -, rfl, hlen⟩ :=
    processBatchClass_some_elim ov thr b cls r h
  refine ⟨?_, ?_, ?_, ?_⟩
  · rw [matchImageClass_labels_length, matchImageClass_scores_length]
  · exact matchImageClass_labels_mem ov thr cb cs cg
  · exact matchImageClass_labels_sum_le ov thr cb cs cg hlen
  · intro hz
    exact matchImageClass_labels_zero_of_no_gt ov thr cb cs cg hz

theorem accClsStep_some_elim (ov : Box → Box → ℚ) (thr : ℚ) (b : Batch)
    (acc st1 : AccState) (cls : ℕ)
    (h : accClsStep ov thr b acc cls = some st1) :
    ∃ r, processBatchClass ov thr b cls = some r
      ∧ st1.pairsByClass
          = acc.pairsByClass.set cls ((acc.pairsByClass.getD cls []) ++ [r.1])
      ∧ st1.numExamplesPerClass
          = acc.numExamplesPerClass.set cls
              ((acc.numExamplesPerClass.getD cls 0) + r.2) := by
  rw [accClsStep] at h
  split at h
  · cases h
  · rename_i r hr
    cases h
    exact ⟨r, hr, rfl, rfl⟩

theorem accBatch_fold_spec (ov : Box → Box → ℚ) (thr : ℚ) (b : Batch)
    (l : List ℕ) (hnd : l.Nodup) (st st2 : AccState)
    (h : foldlMO (accClsStep ov thr b) st l = some st2) :
    st2.pairsByClass.length = st.pairsByClass.length
    ∧ st2.numExamplesPerClass.length = st.numExamplesPerClass.length
    ∧ (∀ cls, cls ∉ l →
        st2.pairsByClass.getD cls [] = st.pairsByClass.getD cls []
        ∧ st2.numExamplesPerClass.getD cls 0 = st.numExamplesPerClass.getD cls 0)
    ∧ (∀ cls ∈ l, cls < st.pairsByClass.length →
        cls < st.numExamplesPerClass.length →
        ∃ r, processBatchClass ov thr b cls = some r
          ∧ st2.pairsByClass.getD cls [] = st.pairsByClass.getD cls [] ++ [r.1]
          ∧ st2.numExamplesPerClass.getD cls 0
              = st.numExamplesPerClass.getD cls 0 + r.2) := by
  induction l generalizing st with
  | nil =>
    rw [foldlMO] at h
    cases h
    exact ⟨rfl, rfl, fun cls _ => ⟨rfl, rfl⟩, fun cls hc => absurd hc (by simp)⟩
  | cons c t ih =>
    rw [foldlMO_cons_bind] at h
    obtain ⟨st1, hst1, h2⟩ := Option.bind_eq_some.mp h
    obtain ⟨r, hr, hp, hn⟩ := accClsStep_some_elim ov thr b st st1 c hst1
    have hct : c ∉ t := (List.nodup_cons.mp hnd).1
    have ihspec := ih hnd.of_cons st1 h2
    have hplen : st1.pairsByClass.length = st.pairsByClass.length := by
      rw [hp, List.length_set]
    have hnlen : st1.numExamplesPerClass.length
        = st.numExamplesPerClass.length := by
      rw [hn, List.length_set]
    refine ⟨ihspec.1.trans hplen, ihspec.2.1.trans hnlen, ?_, ?_⟩
    · intro cls hcls
      have hclsc : cls ≠ c := fun hc => hcls (hc ▸ List.mem_cons_self _ _)
      have hclst : cls ∉ t := fun hc => hcls (List.mem_cons_of_mem _ hc)
      have hu := ihspec.2.2.1 cls hclst
      constructor
      · rw [hu.1, hp, getD_set_ne _ _ _ _ _ (fun hc => hclsc hc.symm)]
      · rw [hu.2, hn, getD_set_ne _ _ _ _ _ (fun hc => hclsc hc.symm)]
    · intro cls hcls hlt1 hlt2
      rcases List.mem_cons.mp hcls with hcc | hct2
      · subst hcc
        have hu := ihspec.2.2.1 cls hct
        refine ⟨r, hr, ?_, ?_⟩
        · rw [hu.1, hp, getD_set_self _ _ _ _ hlt1]
        · rw [hu.2, hn, getD_set_self _ _ _ _ hlt2]
      · have hclsc : cls ≠ c := fun hc => hct ((hc ▸ hct2 : c ∈ t))
        obtain ⟨r2, hr2, hu1, hu2⟩ := ihspec.2.2.2 cls hct2
          (by rw [hplen]; exact hlt1) (by rw [hnlen]; exact hlt2)
        refine ⟨r2, hr2, ?_, ?_⟩
        · rw [hu1, hp, getD_set_ne _ _ _ _ _ (fun hc => hclsc hc.symm)]
        · rw [hu2, hn, getD_set_ne _ _ _ _ _ (fun hc => hclsc hc.symm)]

theorem accBatch_some_spec (ov : Box → Box → ℚ) (thr : ℚ) (n : ℕ) (b : Batch)
    (st st2 : AccState)
    (h : accBatch ov thr n st b = some st2)
    (hp : st.pairsByClass.length = n)
    (hn : st.numExamplesPerClass.length = n) :
    st2.pairsByClass.length = n
    ∧ st2.numExamplesPerClass.length = n
    ∧ ∀ cls, cls < n →
        ∃ r, processBatchClass ov thr b cls = some r
          ∧ st2.pairsByClass.getD cls [] = st.pairsByClass.getD cls [] ++ [r.1]
          ∧ st2.numExamplesPerClass.getD cls 0
              = st.numExamplesPerClass.getD cls 0 + r.2 := by
  rw [accBatch] at h
  have hspec := accBatch_fold_spec ov thr b (List.range n) (List.nodup_range n)
    st st2 h
  refine ⟨hspec.1.trans hp, hspec.2.1.trans hn, ?_⟩
  intro cls hcls
  exact hspec.2.2.2 cls (List.mem_range.mpr hcls) (by omega) (by omega)

theorem accumulateBatches_slot (ov : Box → Box → ℚ) (thr : ℚ) (n : ℕ)
    (batches : List Batch) (st : AccState)
    (h : accumulateBatches ov thr n batches = some st) (cls : ℕ)
    (hcls : cls < n) :
    st.pairsByClass.length = n
    ∧ st.numExamplesPerClass.length = n
    ∧ ∃ rs, mapMO (fun b => processBatchClass ov thr b cls) batches = some rs
        ∧ st.pairsByClass.getD cls [] = rs.map (fun r => r.1)
        ∧ st.numExamplesPerClass.getD cls 0 = (rs.map (fun r => r.2)).sum := by
  rw [accumulateBatches] at h
  -- generalize over the initial accumulator state
  suffices hgen : ∀ (st0 : AccState), st0.pairsByClass.length = n →
      st0.numExamplesPerClass.length = n →
      foldlMO (accBatch ov thr n) st0 batches = some st →
      st.pairsByClass.length = n
      ∧ st.numExamplesPerClass.length = n
      ∧ ∃ rs, mapMO (fun b => processBatchClass ov thr b cls) batches = some rs
          ∧ st.pairsByClass.getD cls []
              = st0.pairsByClass.getD cls [] ++ rs.map (fun r => r.1)
          ∧ st.numExamplesPerClass.getD cls 0
              = st0.numExamplesPerClass.getD cls 0 + (rs.map (fun r => r.2)).sum by
    obtain ⟨h1, h2, rs, h3, h4, h5⟩ := hgen (initAcc n) (by simp [initAcc])
      (by simp [initAcc]) h
    refine ⟨h1, h2, rs, h3, ?_, ?_⟩
    · rw [h4, initAcc]
      simp only
      rw [getD_replicate_elt]
      simp [hcls]
    · rw [h5, initAcc]
      simp only
      rw [getD_replicate_elt]
      simp [hcls]
  clear h
  induction batches with
  | nil =>
    intro st0 hp0 hn0 h
    rw [foldlMO] at h
    cases h
    exact ⟨hp0, hn0, [], rfl, by simp, by simp⟩
  | cons b bs ih =>
    intro st0 hp0 hn0 h
    rw [foldlMO_cons_bind] at h
    obtain ⟨st1, hst1, h2⟩ := Option.bind_eq_some.mp h
    have hbspec := accBatch_some_spec ov thr n b st0 st1 hst1 hp0 hn0
    obtain ⟨r, hr, hu1, hu2⟩ := hbspec.2.2 cls hcls
    obtain ⟨h1, h2a, rs, h3, h4, h5⟩ := ih st1 hbspec.1 hbspec.2.1 h2
    refine ⟨h1, h2a, r :: rs, ?_, ?_, ?_⟩
    · rw [mapMO_cons_bind, hr, h3]
      rfl
    · rw [h4, hu1]
      simp
    · rw [h5, hu2]
      simp only [List.map_cons, List.sum_cons]
      omega

/-- Facts about one class's accumulated slot after the batch phase: one
emitted pair per image, aligned label/score lengths, 0/1 labels, the total
label sum bounded by the class's `num_examples`, and all-zero labels when
the class has no ground truth anywhere. -/
theorem classSlot_facts (ov : Box → Box → ℚ) (thr : ℚ) (n : ℕ)
    (batches : List Batch) (st : AccState)
    (h : accumulateBatches ov thr n batches = some st) (cls : ℕ)
    (hcls : cls < n) :
    (st.pairsByClass.getD cls []).length = batches.length
    ∧ (∀ p ∈ st.pairsByClass.getD cls [],
        p.1.length = p.2.length ∧ ∀ x ∈ p.1, x = 0 ∨ x = 1)
    ∧ (flatLabels (st.pairsByClass.getD cls [])).sum
        ≤ (st.numExamplesPerClass.getD cls 0 : ℚ)
    ∧ (st.numExamplesPerClass.getD cls 0 = 0 →
        ∀ p ∈ st.pairsByClass.getD cls [], ∀ x ∈ p.1, x = 0) := by
  obtain ⟨-, -, rs, hrs, hpairs, hnum⟩ :=
    accumulateBatches_slot ov thr n batches st h cls hcls
  refine ⟨?_, ?_, ?_, ?_⟩
  · rw [hpairs, List.length_map]
    exact mapMO_some_length _ _ _ hrs
  · intro p hp
    rw [hpairs] at hp
    obtain ⟨r, hr, rfl⟩ := List.mem_map.mp hp
    obtain ⟨b, -, hb⟩ := mapMO_some_mem _ _ _ hrs r hr
    have hf := processBatchClass_pair_facts ov thr b cls r hb
    exact ⟨hf.1, hf.2.1⟩
  · rw [hpairs, hnum, flatLabels, List.map_map, List.sum_flatten,
      List.map_map, Nat.cast_list_sum, List.map_map]
    apply List.sum_le_sum
    intro r hr
    obtain ⟨b, -, hb⟩ := mapMO_some_mem _ _ _ hrs r hr
    have hf := processBatchClass_pair_facts ov thr b cls r hb
    simpa using hf.2.2.1
  · intro hz p hp x hx
    rw [hpairs] at hp
    obtain ⟨r, hr, rfl⟩ := List.mem_map.mp hp
    obtain ⟨b, -, hb⟩ := mapMO_some_mem _ _ _ hrs r hr
    have hf := processBatchClass_pair_facts ov thr b cls r hb
    apply hf.2.2.2 _ x hx
    rw [hnum] at hz
    have := List.sum_eq_zero_iff.mp hz (r.2) (List.mem_map_of_mem _ hr)
    exact this

/- ---------------------------------------------------------------------- -/
/- Lemmas about the per-class ranking, PR curve and AP integration.        -/
/- ---------------------------------------------------------------------- -/

theorem flat_lengths_eq (pairs : List (List ℚ × List ℚ))
    (h : ∀ p ∈ pairs, p.1.length = p.2.length) :
    (flatLabels pairs).length = (flatScores pairs).length := by
  rw [flatLabels, flatScores, List.length_flatten, List.length_flatten,
    List.map_map, List.map_map]
  congr 1
  apply List.map_congr_left
  intro p hp
  exact h p hp

theorem rankedTP_length (pairs : List (List ℚ × List ℚ)) :
    (rankedTP pairs).length = (flatScores pairs).length := by
  rw [rankedTP, List.length_map, argsortDesc_length]

theorem rankedTP_mem01 (pairs : List (List ℚ × List ℚ))
    (h : ∀ p ∈ pairs, ∀ x ∈ p.1, x = 0 ∨ x = 1) :
    ∀ x ∈ rankedTP pairs, x = 0 ∨ x = 1 := by
  intro x hx
  rw [rankedTP] at hx
  obtain ⟨i, -, rfl⟩ := List.mem_map.mp hx
  rcases getD_eq_or_mem (flatLabels pairs) i 0 with h1 | h1
  · left; exact h1
  · rw [flatLabels] at h1
    obtain ⟨l, hl, hxl⟩ := List.mem_flatten.mp h1
    obtain ⟨p, hp, rfl⟩ := List.mem_map.mp hl
    exact h p hp _ hxl

theorem rankedTP_zero (pairs : List (List ℚ × List ℚ))
    (h : ∀ p ∈ pairs, ∀ x ∈ p.1, x = 0) :
    ∀ x ∈ rankedTP pairs, x = 0 := by
  intro x hx
  rw [rankedTP] at hx
  obtain ⟨i, -, rfl⟩ := List.mem_map.mp hx
  rcases getD_eq_or_mem (flatLabels pairs) i 0 with h1 | h1
  · exact h1
  · rw [flatLabels] at h1
    obtain ⟨l, hl, hxl⟩ := List.mem_flatten.mp h1
    obtain ⟨p, hp, rfl⟩ := List.mem_map.mp hl
    exact h p hp _ hxl

theorem rankedTP_sum_eq (pairs : List (List ℚ × List ℚ))
    (hlen : (flatLabels pairs).length = (flatScores pairs).length) :
    (rankedTP pairs).sum = (flatLabels pairs).sum := by
  have hperm := (argsortDesc_perm (flatScores pairs)).map
    (fun i => (flatLabels pairs).getD i 0)
  rw [rankedTP, hperm.sum_eq, ← hlen, map_getD_range]

theorem cum_rank_identity (pairs : List (List ℚ × List ℚ)) (i : ℕ)
    (hi : i < (rankedTP pairs).length) :
    (cumTP pairs).getD i 0 + (cumFP pairs).getD i 0 = (i : ℚ) + 1 := by
  rw [cumTP, cumFP, cumsum_getD _ _ hi,
    cumsum_getD _ _ (by simpa using hi), ← List.map_take, sum_map_one_sub]
  have ht : ((rankedTP pairs).take (i + 1)).length = i + 1 := by
    rw [List.length_take]
    omega
  rw [ht]
  push_cast
  ring

theorem cumsum_mem_le_sum (xs : List ℚ) (hpos : ∀ x ∈ xs, 0 ≤ x) (y : ℚ)
    (hy : y ∈ cumsum xs) : y ≤ xs.sum := by
  rw [cumsum] at hy
  obtain ⟨i, -, rfl⟩ := List.mem_map.mp hy
  conv_rhs => rw [← List.take_append_drop (i + 1) xs]
  rw [List.sum_append]
  have hd : 0 ≤ (xs.drop (i + 1)).sum :=
    List.sum_nonneg (fun x hx => hpos x (List.mem_of_mem_drop hx))
  linarith

theorem cumsum_mem_nonneg (xs : List ℚ) (hpos : ∀ x ∈ xs, 0 ≤ x) (y : ℚ)
    (hy : y ∈ cumsum xs) : 0 ≤ y := by
  rw [cumsum] at hy
  obtain ⟨i, -, rfl⟩ := List.mem_map.mp hy
  exact List.sum_nonneg (fun x hx => hpos x (List.mem_of_mem_take hx))

theorem precision_entries_unit (pairs : List (List ℚ × List ℚ))
    (h01 : ∀ x ∈ rankedTP pairs, x = 0 ∨ x = 1) :
    ∀ p ∈ precisionOf pairs, FVal.inUnit p := by
  intro p hp
  rw [precisionOf] at hp
  obtain ⟨pr, hpr, rfl⟩ := List.mem_map.mp hp
  obtain ⟨i, hilt, hpr2⟩ := List.mem_iff_getElem.mp hpr
  have hi1 : i < (cumTP pairs).length := by
    rw [List.length_zip] at hilt
    omega
  have hi2 : i < (cumFP pairs).length := by
    rw [List.length_zip] at hilt
    omega
  have hr : i < (rankedTP pairs).length := by
    rw [cumTP, cumsum_length] at hi1
    exact hi1
  rw [List.getElem_zip] at hpr2
  have hfst : pr.1 = (cumTP pairs).getD i 0 := by
    rw [← hpr2, List.getD_eq_getElem _ _ hi1]
  have hsnd : pr.2 = (cumFP pairs).getD i 0 := by
    rw [← hpr2, List.getD_eq_getElem _ _ hi2]
  have hiden := cum_rank_identity pairs i hr
  have hnonneg : ∀ x ∈ rankedTP pairs, (0 : ℚ) ≤ x := by
    intro x hx
    rcases h01 x hx with h | h <;> rw [h] <;> norm_num
  have hnum0 : 0 ≤ pr.1 := by
    rw [hfst, cumTP, cumsum_getD _ _ hr]
    exact List.sum_nonneg
      (fun x hx => hnonneg x (List.mem_of_mem_take hx))
  have hnum1 : pr.1 ≤ (i : ℚ) + 1 := by
    rw [hfst, cumTP, cumsum_getD _ _ hr]
    have hle := sum_le_length_of_le_one ((rankedTP pairs).take (i + 1))
      (fun x hx => by
        rcases h01 x (List.mem_of_mem_take hx) with h | h <;> rw [h] <;> norm_num)
    have ht : (((rankedTP pairs).take (i + 1)).length : ℚ) = (i : ℚ) + 1 := by
      rw [List.length_take]
      push_cast [Nat.min_eq_left (by omega : i + 1 ≤ (rankedTP pairs).length)]
      ring
    rw [ht] at hle
    exact hle
  have hden : pr.1 + pr.2 = (i : ℚ) + 1 := by
    rw [hfst, hsnd]
    exact hiden
  rw [fdiv, if_neg (by rw [hden]; positivity)]
  refine ⟨pr.1 / (pr.1 + pr.2), rfl, ?_, ?_⟩
  · apply div_nonneg hnum0
    rw [hden]
    positivity
  · rw [div_le_one (by rw [hden]; positivity)]
    linarith

theorem fmax_unit (a b : FVal) (ha : FVal.inUnit a) (hb : FVal.inUnit b) :
    FVal.inUnit (a.fmax b) := by
  obtain ⟨qa, rfl, ha0, ha1⟩ := ha
  obtain ⟨qb, rfl, hb0, hb1⟩ := hb
  refine ⟨max qa qb, rfl, ?_, ?_⟩
  · exact le_max_of_le_left ha0
  · exact max_le ha1 hb1

theorem npMax_unit (l : List FVal) (h : ∀ p ∈ l, FVal.inUnit p) (v : FVal)
    (hv : npMax l = some v) : FVal.inUnit v := by
  cases l with
  | nil => cases hv
  | cons x rest =>
    rw [npMax] at hv
    cases hv
    have hx : FVal.inUnit x := h x (List.mem_cons_self _ _)
    have hrest : ∀ p ∈ rest, FVal.inUnit p :=
      fun p hp => h p (List.mem_cons_of_mem _ hp)
    clear h
    induction rest generalizing x with
    | nil => exact hx
    | cons y t ih =>
      rw [List.foldl_cons]
      exact ih _ (fmax_unit x y hx (hrest y (List.mem_cons_self _ _)))
        (fun p hp => hrest p (List.mem_cons_of_mem _ hp))

theorem apStep_none (precision recl : List FVal) (t : ℚ) :
    apStep precision recl none t = none := rfl

theorem apFold_none (precision recl : List FVal) (ts : List ℚ) :
    ts.foldl (apStep precision recl) none = none := by
  induction ts with
  | nil => rfl
  | cons t ts ih => rw [List.foldl_cons, apStep_none, ih]

theorem apStep_some (precision recl : List FVal) (t : ℚ) (ap : FVal) :
    apStep precision recl (some ap) t
      = if recl.any (fun v => v.fge t) then
          (npMax (((precision.zip recl).filter
            (fun p => p.2.fgt t)).map (fun p => p.1))).bind
            (fun prec => some (ap.add (prec.divF 11)))
        else some ap := by
  rw [apStep]
  split
  · cases npMax (((precision.zip recl).filter
      (fun p => p.2.fgt t)).map (fun p => p.1)) with
    | none => rfl
    | some prec => rfl
  · rfl

theorem selection_sub_precision (precision recl : List FVal) (t : ℚ) (p : FVal)
    (hp : p ∈ ((precision.zip recl).filter
      (fun q => q.2.fgt t)).map (fun q => q.1)) : p ∈ precision := by
  obtain ⟨q, hq, rfl⟩ := List.mem_map.mp hp
  have hq2 := List.mem_of_mem_filter hq
  obtain ⟨p2, r2⟩ := q
  exact (List.of_mem_zip hq2).1

theorem apFold_bound (precision recl : List FVal)
    (hp : ∀ p ∈ precision, FVal.inUnit p) (ts : List ℚ) (a : ℚ) (ha : 0 ≤ a)
    (v : FVal)
    (h : ts.foldl (apStep precision recl) (some (FVal.val a)) = some v) :
    ∃ q, v = FVal.val q ∧ 0 ≤ q ∧ q ≤ a + (ts.length : ℚ) / 11 := by
  induction ts generalizing a with
  | nil =>
    rw [List.foldl_nil] at h
    cases h
    exact ⟨a, rfl, ha, by simp⟩
  | cons t ts ih =>
    rw [List.foldl_cons, apStep_some] at h
    split at h
    · cases hmax : npMax (((precision.zip recl).filter
        (fun p => p.2.fgt t)).map (fun p => p.1)) with
      | none =>
        rw [hmax] at h
        rw [show (none : Option FVal).bind
          (fun prec => some (FVal.add (FVal.val a) (prec.divF 11))) = none from rfl,
          apFold_none] at h
        cases h
      | some prec =>
        rw [hmax] at h
        have hprec : FVal.inUnit prec :=
          npMax_unit _ (fun p hpm => hp p (selection_sub_precision _ _ _ _ hpm))
            prec hmax
        obtain ⟨qp, rfl, hq0, hq1⟩ := hprec
        have hstep : (FVal.val a).add ((FVal.val qp).divF 11)
            = FVal.val (a + qp / 11) := by
          rw [FVal.divF, fdiv, if_neg (by norm_num)]
          rfl
        rw [show ((some (FVal.val qp)).bind
            (fun prec => some (FVal.add (FVal.val a) (prec.divF 11))))
            = some ((FVal.val a).add ((FVal.val qp).divF 11)) from rfl,
          hstep] at h
        obtain ⟨q, rfl, h0, h1⟩ := ih (a + qp / 11) (by positivity) h
        refine ⟨q, rfl, h0, ?_⟩
        have hlen : ((ts.length + 1 : ℕ) : ℚ) = (ts.length : ℚ) + 1 := by
          push_cast
          ring
        simp only [List.length_cons, hlen]
        have : qp / 11 ≤ 1 / 11 := by linarith
        linarith [h1]
    · obtain ⟨q, rfl, h0, h1⟩ := ih a ha h
      refine ⟨q, rfl, h0, ?_⟩
      simp only [List.length_cons]
      push_cast
      have h2 : ((ts.length : ℚ) + 1) / 11 = (ts.length : ℚ) / 11 + 1 / 11 := by
        ring
      rw [h2]
      linarith

theorem recallThresholds_length : recallThresholds.length = 11 := rfl

theorem apIntegrate_unit (precision recl : List FVal)
    (hp : ∀ p ∈ precision, FVal.inUnit p) (v : FVal)
    (h : apIntegrate precision recl = some v) : FVal.inUnit v := by
  rw [apIntegrate] at h
  obtain ⟨q, rfl, h0, h1⟩ := apFold_bound precision recl hp _ 0 le_rfl v h
  refine ⟨q, rfl, h0, ?_⟩
  rw [recallThresholds_length] at h1
  norm_num at h1
  exact h1

theorem apFold_skip (precision recl : List FVal) (ts : List ℚ) (ap : FVal)
    (hskip : ∀ t ∈ ts, recl.any (fun v => v.fge t) = false) :
    ts.foldl (apStep precision recl) (some ap) = some ap := by
  induction ts with
  | nil => rfl
  | cons t ts ih =>
    rw [List.foldl_cons, apStep_some,
      if_neg (by rw [hskip t (List.mem_cons_self _ _)]; exact Bool.false_ne_true)]
    exact ih (fun x hx => hskip x (List.mem_cons_of_mem _ hx))

theorem apIntegrate_all_nan (precision recl : List FVal)
    (hnan : ∀ v ∈ recl, v = FVal.nan) :
    apIntegrate precision recl = some (FVal.val 0) := by
  rw [apIntegrate]
  apply apFold_skip
  intro t ht
  rw [List.any_eq_false]
  intro x hx
  rw [hnan x hx]
  simp [FVal.fge]

/- ---------------------------------------------------------------------- -/
/- Lemmas about `perClassAP`, `npMean` and `calculateMap`.                 -/
/- ---------------------------------------------------------------------- -/

theorem perClassAP_ne_nil (numEx : ℕ) (pairs : List (List ℚ × List ℚ))
    (hne : pairs ≠ []) :
    perClassAP numEx pairs
      = apIntegrate (precisionOf pairs) (recallOf numEx pairs) := by
  cases pairs with
  | nil => exact absurd rfl hne
  | cons p t => rfl

theorem perClassAP_zero_gt (pairs : List (List ℚ × List ℚ))
    (hne : pairs ≠ []) (hz : ∀ p ∈ pairs, ∀ x ∈ p.1, x = 0) :
    perClassAP 0 pairs = some (FVal.val 0) := by
  rw [perClassAP_ne_nil 0 pairs hne]
  apply apIntegrate_all_nan
  intro v hv
  rw [recallOf] at hv
  obtain ⟨tp, htp, rfl⟩ := List.mem_map.mp hv
  have htp0 : tp = 0 := by
    apply cumsum_all_zero _ (rankedTP_zero pairs hz) tp
    rw [cumTP] at htp
    exact htp
  rw [htp0, fdiv]
  norm_num

theorem perClassAP_some_unit (numEx : ℕ) (pairs : List (List ℚ × List ℚ))
    (h01 : ∀ p ∈ pairs, ∀ x ∈ p.1, x = 0 ∨ x = 1) (v : FVal)
    (h : perClassAP numEx pairs = some v) : FVal.inUnit v := by
  cases pairs with
  | nil => cases h
  | cons p t =>
    rw [perClassAP] at h
    exact apIntegrate_unit _ _
      (precision_entries_unit _ (rankedTP_mem01 _ h01)) v h

theorem fadd_sum_bound (xs : List FVal)
    (hx : ∀ x ∈ xs, FVal.inUnit x) (a : ℚ) (ha : 0 ≤ a) :
    ∃ s, xs.foldl FVal.add (FVal.val a) = FVal.val s
      ∧ a ≤ s ∧ s ≤ a + (xs.length : ℚ) ∧ 0 ≤ s := by
  induction xs generalizing a with
  | nil => exact ⟨a, rfl, le_rfl, by simp, ha⟩
  | cons x t ih =>
    obtain ⟨qx, rfl, hx0, hx1⟩ := hx x (List.mem_cons_self _ _)
    rw [List.foldl_cons]
    have hadd : (FVal.val a).add (FVal.val qx) = FVal.val (a + qx) := rfl
    rw [hadd]
    obtain ⟨s, hs, hs1, hs2, hs3⟩ := ih
      (fun y hy => hx y (List.mem_cons_of_mem _ hy)) (a + qx) (by positivity)
    refine ⟨s, hs, by linarith, ?_, hs3⟩
    simp only [List.length_cons]
    push_cast
    linarith

theorem npMean_unit (xs : List FVal) (hx : ∀ x ∈ xs, FVal.inUnit x)
    (hlen : 1 ≤ xs.length) : FVal.inUnit (npMean xs) := by
  obtain ⟨s, hs, -, hs2, hs3⟩ := fadd_sum_bound xs hx 0 le_rfl
  have hpos : (0 : ℚ) < (xs.length : ℚ) := by
    have : (1 : ℚ) ≤ (xs.length : ℚ) := by exact_mod_cast hlen
    linarith
  rw [npMean, hs, FVal.divF, fdiv, if_neg (by linarith)]
  refine ⟨s / xs.length, rfl, by positivity, ?_⟩
  rw [div_le_one hpos]
  linarith

theorem calculateMap_some_elim (ov : Box → Box → ℚ) (batches : List Batch)
    (n : ℕ) (thr : ℚ) (m : FVal) (aps : List FVal)
    (h : calculateMap ov batches n thr = some (m, aps)) :
    ∃ st, accumulateBatches ov thr n batches = some st
      ∧ mapMO (fun cls => perClassAP (st.numExamplesPerClass.getD cls 0)
          (st.pairsByClass.getD cls [])) (List.range n) = some aps
      ∧ m = npMean aps := by
  rw [calculateMap] at h
  split at h
  · cases h
  · rename_i st hst
    split at h
    · cases h
    · rename_i aps2 haps
      cases h
      exact ⟨st, hst, haps, rfl⟩

/- ---------------------------------------------------------------------- -/
/- An appended detection with an out-of-range label is invisible.          -/
/- ---------------------------------------------------------------------- -/

theorem maskSelect_append_false {α : Type} (mask : List Bool) (xs : List α)
    (x : α) :
    maskSelect (mask ++ [false]) (xs ++ [x]) = maskSelect mask xs := by
  rw [maskSelect, maskSelect]
  by_cases h : mask.length = xs.length
  · rw [if_pos (by simp [h]), if_pos h, List.zip_append h, List.filter_append]
    simp
  · rw [if_neg (by simp [h]), if_neg h]

theorem processBatchClass_extend (ov : Box → Box → ℚ) (thr : ℚ) (b : Batch)
    (box : Box) (lbl : ℤ) (s : ℚ) (cls : ℕ) (hne : lbl ≠ (cls : ℤ)) :
    processBatchClass ov thr (extendBatch b box lbl s) cls
      = processBatchClass ov thr b cls := by
  rw [processBatchClass_eq_bind, processBatchClass_eq_bind]
  have hmask : (extendBatch b box lbl s).classes.map
        (fun l => decide (l = (cls : ℤ)))
      = (b.classes.map (fun l => decide (l = (cls : ℤ)))) ++ [false] := by
    rw [extendBatch]
    simp [hne]
  have hgtc : (extendBatch b box lbl s).gtClasses = b.gtClasses := rfl
  have hgtb : (extendBatch b box lbl s).gtBboxes = b.gtBboxes := rfl
  have hbb : (extendBatch b box lbl s).bboxes = b.bboxes ++ [box] := rfl
  have hsc : (extendBatch b box lbl s).scores = b.scores ++ [s] := rfl
  rw [hmask, hgtc, hgtb, hbb, hsc, maskSelect_append_false,
    maskSelect_append_false]

theorem accBatch_extend (ov : Box → Box → ℚ) (thr : ℚ) (n : ℕ)
    (st : AccState) (b : Batch) (box : Box) (lbl : ℤ) (s : ℚ)
    (hlbl : lbl < 0 ∨ (n : ℤ) ≤ lbl) :
    accBatch ov thr n st (extendBatch b box lbl s) = accBatch ov thr n st b := by
  rw [accBatch, accBatch]
  apply foldlMO_congr
  intro s2 cls hcls
  have hclsn : cls < n := List.mem_range.mp hcls
  have hne : lbl ≠ (cls : ℤ) := by
    rcases hlbl with h | h
    · intro hc
      omega
    · intro hc
      have : (cls : ℤ) < (n : ℤ) := by exact_mod_cast hclsn
      omega
  rw [accClsStep, accClsStep, processBatchClass_extend ov thr b box lbl s cls hne]

/- ---------------------------------------------------------------------- -/
/- The claims.                                                             -/
/- ---------------------------------------------------------------------- -/

/-- Claim C1 (code bug).  The greedy matcher stores `tp_fp_labels` indexed
by *original* detection position (`tp_fp_labels[bbox_idx] = True`) but
emits the scores reordered (`cls_scores[sorted_indices]`).  At this input
(two detections with scores 1/5 and 9/10, one ground truth matching only
the second), the true positive is the detection of score 9/10, yet the
emitted pair is `([0, 1], [9/10, 1/5])`: position 0 carries the label of
the score-1/5 detection next to the score 9/10.  The i-th label does not
refer to the same detection as the i-th score, so after re-sorting by score
downstream the labels are attached to the wrong detections. -/
theorem labelScoreMisalignedAtConcreteInput :
    matchImageClass ovEq (1/2) [boxA, boxB] [1/5, 9/10] [boxB]
      = ([0, 1], [9/10, 1/5]) := by
  norm_num [calculateMap, accumulateBatches, accBatch, accClsStep, processBatchClass, maskSelect, matchImageClass, argsortDesc, insertDesc, argmaxIdx, greedyStep, iouMatrix, perClassAP, apIntegrate, apStep, recallThresholds, precisionOf, recallOf, cumTP, cumFP, rankedTP, flatLabels, flatScores, cumsum, npMax, npMean, fdiv, FVal.add, FVal.divF, FVal.fge, FVal.fgt, FVal.fmax, foldlMO, mapMO, initAcc, ovEq, ovThree, boxA, boxB, boxC, batchB, batchThreeGt, batchOutOfRange, extendBatch, List.range_succ, List.replicate_succ, List.set]

/-- Claim C2 (code bug).  The AP loop guards with `np.any(recall >= t)` but
then takes `np.max(precision[recall > t])`; when the greatest recall equals
the threshold exactly, the guard passes and the slice is empty, and
`np.max` of an empty array raises `ValueError`.  This is the spec's
scenario B: 1 ground truth, 1 detection of overlap 3/10 < 1/2, so recall
stays at 0; at t = 0 the guard `recall >= 0` holds but `recall > 0` selects
nothing, and the whole computation raises instead of returning AP = 0. -/
theorem scenarioBIntegrationRaises :
    calculateMap ovThree [batchB] 1 (1/2) = none := by
  norm_num [calculateMap, accumulateBatches, accBatch, accClsStep, processBatchClass, maskSelect, matchImageClass, argsortDesc, insertDesc, argmaxIdx, greedyStep, iouMatrix, perClassAP, apIntegrate, apStep, recallThresholds, precisionOf, recallOf, cumTP, cumFP, rankedTP, flatLabels, flatScores, cumsum, npMax, npMean, fdiv, FVal.add, FVal.divF, FVal.fge, FVal.fgt, FVal.fmax, foldlMO, mapMO, initAcc, ovEq, ovThree, boxA, boxB, boxC, batchB, batchThreeGt, batchOutOfRange, extendBatch, List.range_succ, List.replicate_succ, List.set]

/-- Claim C3 (code bug: the pair is computed but never returned).  Whenever
the computation completes, `ap_per_class` has exactly one AP entry per
class and `mean_ap` is `np.mean` of that array (its arithmetic mean).  In
the source these are the values of the two final assignments; the function
then executes `from IPython import embed; embed(display_banner=False)` and
falls off the end, returning `None` instead of the pair. -/
theorem calculateMapMeanOfPerClass (ov : Box → Box → ℚ)
    (batches : List Batch) (n : ℕ) (thr : ℚ) (m : FVal) (aps : List FVal)
    (h : calculateMap ov batches n thr = some (m, aps)) :
    aps.length = n ∧ m = npMean aps := by
  obtain ⟨st, -, haps, rfl⟩ := calculateMap_some_elim ov batches n thr m aps h
  exact ⟨(mapMO_some_length _ _ _ haps).trans (List.length_range n), rfl⟩

/-- Witness for `calculateMapMeanOfPerClass` at a concrete completing run:
one class, one image, one detection matching one of three ground truths. -/
theorem calculateMapMeanOfPerClassWitness :
    calculateMap ovEq [batchThreeGt] 1 (1/2)
        = some (FVal.val (4/11), [FVal.val (4/11)])
      ∧ [FVal.val (4/11)].length = 1
      ∧ FVal.val (4/11) = npMean [FVal.val (4/11)] :=
  ⟨by norm_num [calculateMap, accumulateBatches, accBatch, accClsStep, processBatchClass, maskSelect, matchImageClass, argsortDesc, insertDesc, argmaxIdx, greedyStep, iouMatrix, perClassAP, apIntegrate, apStep, recallThresholds, precisionOf, recallOf, cumTP, cumFP, rankedTP, flatLabels, flatScores, cumsum, npMax, npMean, fdiv, FVal.add, FVal.divF, FVal.fge, FVal.fgt, FVal.fmax, foldlMO, mapMO, initAcc, ovEq, ovThree, boxA, boxB, boxC, batchB, batchThreeGt, batchOutOfRange, extendBatch, List.range_succ, List.replicate_succ, List.set],
    calculateMapMeanOfPerClass ovEq [batchThreeGt] 1 (1/2) (FVal.val (4/11))
      [FVal.val (4/11)] (by norm_num [calculateMap, accumulateBatches, accBatch, accClsStep, processBatchClass, maskSelect, matchImageClass, argsortDesc, insertDesc, argmaxIdx, greedyStep, iouMatrix, perClassAP, apIntegrate, apStep, recallThresholds, precisionOf, recallOf, cumTP, cumFP, rankedTP, flatLabels, flatScores, cumsum, npMax, npMean, fdiv, FVal.add, FVal.divF, FVal.fge, FVal.fgt, FVal.fmax, foldlMO, mapMO, initAcc, ovEq, ovThree, boxA, boxB, boxC, batchB, batchThreeGt, batchOutOfRange, extendBatch, List.range_succ, List.replicate_succ, List.set])⟩

/-- Claim C4 counterexample.  With `num_classes = 1` and an input whose only
detection carries the class label 5 (outside `[0, 1)`), `calculate_map`
completes normally and returns a value: no validation error is raised; the
out-of-range detection is silently ignored (the claim requires a
descriptive validation error before any matching). -/
theorem validationErrorNeverRaised :
    calculateMap ovEq [batchOutOfRange] 1 (1/2)
      = some (FVal.val 0, [FVal.val 0]) := by
  norm_num [calculateMap, accumulateBatches, accBatch, accClsStep, processBatchClass, maskSelect, matchImageClass, argsortDesc, insertDesc, argmaxIdx, greedyStep, iouMatrix, perClassAP, apIntegrate, apStep, recallThresholds, precisionOf, recallOf, cumTP, cumFP, rankedTP, flatLabels, flatScores, cumsum, npMax, npMean, fdiv, FVal.add, FVal.divF, FVal.fge, FVal.fgt, FVal.fmax, foldlMO, mapMO, initAcc, ovEq, ovThree, boxA, boxB, boxC, batchB, batchThreeGt, batchOutOfRange, extendBatch, List.range_succ, List.replicate_succ, List.set]

/-- Claim C4 as amended.  `calculate_map` performs no input validation: a
detection whose class label lies outside `[0, num_classes)` is silently
ignored — it is selected into no class's subset, and the result is
identical to the run without it.  (Mismatched per-image array lengths are
not pre-validated either; they surface only as a numpy `IndexError` when
the per-class boolean-mask selection executes, `maskSelect = none` here.) -/
theorem outOfRangeLabelSilentlyIgnored (ov : Box → Box → ℚ) (thr : ℚ)
    (n : ℕ) (b : Batch) (box : Box) (lbl : ℤ) (s : ℚ)
    (hlbl : lbl < 0 ∨ (n : ℤ) ≤ lbl) (pre post : List Batch) :
    calculateMap ov (pre ++ extendBatch b box lbl s :: post) n thr
      = calculateMap ov (pre ++ b :: post) n thr := by
  have hcons : ∀ st1 : AccState,
      foldlMO (accBatch ov thr n) st1 (extendBatch b box lbl s :: post)
        = foldlMO (accBatch ov thr n) st1 (b :: post) := by
    intro st1
    rw [foldlMO_cons_bind, foldlMO_cons_bind,
      accBatch_extend ov thr n st1 b box lbl s hlbl]
  have hacc : accumulateBatches ov thr n (pre ++ extendBatch b box lbl s :: post)
      = accumulateBatches ov thr n (pre ++ b :: post) := by
    rw [accumulateBatches, accumulateBatches, foldlMO_append, foldlMO_append,
      show (fun st2 => foldlMO (accBatch ov thr n) st2
          (extendBatch b box lbl s :: post))
        = (fun st2 => foldlMO (accBatch ov thr n) st2 (b :: post)) from
        funext hcons]
  rw [calculateMap, calculateMap, hacc]

/-- Witness for `outOfRangeLabelSilentlyIgnored`: label 5, one class. -/
theorem outOfRangeLabelSilentlyIgnoredWitness :
    ((5 : ℤ) < 0 ∨ ((1 : ℕ) : ℤ) ≤ 5)
      ∧ calculateMap ovEq ([] ++ extendBatch batchB boxA 5 (1/5) :: []) 1 (1/2)
          = calculateMap ovEq ([] ++ batchB :: []) 1 (1/2) :=
  ⟨Or.inr (by norm_num),
    outOfRangeLabelSilentlyIgnored ovEq (1/2) 1 batchB boxA 5 (1/5)
      (Or.inr (by norm_num)) [] []⟩

/-- Claim C5.  A class whose accumulated ground-truth total over the whole
dataset is 0 (whether or not it has detections) gets AP exactly 0: its
per-class computation completes with `some (val 0)` — every recall entry is
`0/0 = nan`, every threshold is skipped — rather than raising, and when the
whole `calculate_map` run completes, that 0 sits in `ap_per_class` at the
class's position and `mean_ap` is the mean over the array containing it.
(At least one batch is required: with zero batches `zip(*[])` raises for
every class — that behaviour is claim C8.) -/
theorem zeroGtClassYieldsApZero (ov : Box → Box → ℚ) (thr : ℚ)
    (batches : List Batch) (n cls : ℕ) (st : AccState)
    (hacc : accumulateBatches ov thr n batches = some st)
    (hcls : cls < n) (hne : batches ≠ [])
    (hzero : st.numExamplesPerClass.getD cls 0 = 0) :
    perClassAP (st.numExamplesPerClass.getD cls 0)
        (st.pairsByClass.getD cls []) = some (FVal.val 0)
      ∧ ∀ m aps, calculateMap ov batches n thr = some (m, aps) →
          aps.getD cls (FVal.val 1) = FVal.val 0 ∧ m = npMean aps := by
  have hfacts := classSlot_facts ov thr n batches st hacc cls hcls
  have hpne : st.pairsByClass.getD cls [] ≠ [] := by
    intro hc
    rw [hc] at hfacts
    have : batches = [] := List.length_eq_zero.mp hfacts.1.symm
    exact hne this
  have hz := hfacts.2.2.2 hzero
  have hap : perClassAP 0 (st.pairsByClass.getD cls []) = some (FVal.val 0) :=
    perClassAP_zero_gt _ hpne hz
  have hap2 : perClassAP (st.numExamplesPerClass.getD cls 0)
      (st.pairsByClass.getD cls []) = some (FVal.val 0) := by
    rw [hzero]
    exact hap
  refine ⟨hap2, ?_⟩
  intro m aps hcm
  obtain ⟨st2, hacc2, haps, rfl⟩ :=
    calculateMap_some_elim ov batches n thr m aps hcm
  have hsame : st2 = st := by
    rw [hacc] at hacc2
    exact (Option.some_injective _ hacc2).symm
  subst hsame
  have hgetd := mapMO_range_getD _ n aps (FVal.val 1) haps cls hcls
  simp only at hgetd
  rw [hap2] at hgetd
  exact ⟨(Option.some_injective _ hgetd).symm, rfl⟩

/-- Witness for `zeroGtClassYieldsApZero`: two classes, one image; class 1
has no ground truth and no detections, class 0 has three ground truths. -/
theorem zeroGtClassYieldsApZeroWitness :
    accumulateBatches ovEq (1/2) 2 [batchThreeGt]
        = some { pairsByClass := [[([1], [9/10])], [([], [])]],
                 numExamplesPerClass := [3, 0] }
      ∧ perClassAP (({ pairsByClass := [[([1], [9/10])], [([], [])]],
                       numExamplesPerClass := [3, 0] } : AccState).numExamplesPerClass.getD 1 0)
          (({ pairsByClass := [[([1], [9/10])], [([], [])]],
              numExamplesPerClass := [3, 0] } : AccState).pairsByClass.getD 1 [])
          = some (FVal.val 0) :=
  ⟨by norm_num [calculateMap, accumulateBatches, accBatch, accClsStep, processBatchClass, maskSelect, matchImageClass, argsortDesc, insertDesc, argmaxIdx, greedyStep, iouMatrix, perClassAP, apIntegrate, apStep, recallThresholds, precisionOf, recallOf, cumTP, cumFP, rankedTP, flatLabels, flatScores, cumsum, npMax, npMean, fdiv, FVal.add, FVal.divF, FVal.fge, FVal.fgt, FVal.fmax, foldlMO, mapMO, initAcc, ovEq, ovThree, boxA, boxB, boxC, batchB, batchThreeGt, batchOutOfRange, extendBatch, List.range_succ, List.replicate_succ, List.set],
    (zeroGtClassYieldsApZero ovEq (1/2) [batchThreeGt] 2 1
      { pairsByClass := [[([1], [9/10])], [([], [])]],
        numExamplesPerClass := [3, 0] }
      (by norm_num [calculateMap, accumulateBatches, accBatch, accClsStep, processBatchClass, maskSelect, matchImageClass, argsortDesc, insertDesc, argmaxIdx, greedyStep, iouMatrix, perClassAP, apIntegrate, apStep, recallThresholds, precisionOf, recallOf, cumTP, cumFP, rankedTP, flatLabels, flatScores, cumsum, npMax, npMean, fdiv, FVal.add, FVal.divF, FVal.fge, FVal.fgt, FVal.fmax, foldlMO, mapMO, initAcc, ovEq, ovThree, boxA, boxB, boxC, batchB, batchThreeGt, batchOutOfRange, extendBatch, List.range_succ, List.replicate_succ, List.set]) (by norm_num) (by simp) rfl).1⟩

/-- Claim C6.  Within one (class, image) pair the greedy matcher never
labels two distinct detections as true positives against the same
ground-truth index: if detections `i` and `j` are both labelled 1 and the
maximum-overlap ground truth of `i`'s IoU row equals that of `j`'s, then
`i = j`.  (Once a ground truth is claimed, `is_detected[gt_match]` blocks
every later detection whose argmax is that index.) -/
theorem greedyNeverDoubleClaimsGroundTruth (ov : Box → Box → ℚ) (thr : ℚ)
    (clsBboxes : List Box) (clsScores : List ℚ) (clsGtBboxes : List Box)
    (hlen : clsBboxes.length = clsScores.length) (i j : ℕ)
    (hi : (matchImageClass ov thr clsBboxes clsScores clsGtBboxes).1.getD i 0 = 1)
    (hj : (matchImageClass ov thr clsBboxes clsScores clsGtBboxes).1.getD j 0 = 1)
    (hsame : argmaxIdx ((iouMatrix ov clsBboxes clsGtBboxes).getD i [])
      = argmaxIdx ((iouMatrix ov clsBboxes clsGtBboxes).getD j [])) :
    i = j := by
  by_cases h : clsGtBboxes.length = 0
  · rw [matchImageClass_branch_zero ov thr clsBboxes clsScores clsGtBboxes h] at hi
    simp only at hi
    rw [getD_replicate_elt] at hi
    split at hi <;> norm_num at hi
  · rw [matchImageClass_branch_pos ov thr clsBboxes clsScores clsGtBboxes h] at hi hj
    simp only at hi hj
    have hious : ∀ r ∈ iouMatrix ov clsBboxes clsGtBboxes,
        r.length = clsGtBboxes.length := by
      intro r hr
      obtain ⟨x, -, rfl⟩ := List.mem_map.mp hr
      simp
    have hinv := greedy_fold_inv (iouMatrix ov clsBboxes clsGtBboxes) thr
      clsGtBboxes.length hious (Nat.pos_of_ne_zero h) (argsortDesc clsScores)
      (fun b hb => by
        have := argsortDesc_mem_lt clsScores b hb
        simp only [iouMatrix, List.length_map]
        omega)
      { isDetected := List.replicate clsGtBboxes.length 0
        labels := List.replicate (argsortDesc clsScores).length 0 }
      (by simp)
      ⟨fun i2 hi2 => absurd (by
          show (List.replicate (argsortDesc clsScores).length (0 : ℚ)).getD i2 0 = 0
          rw [getD_replicate_elt]
          split <;> rfl) hi2,
        fun i2 j2 hi2 _ _ => absurd (by
          show (List.replicate (argsortDesc clsScores).length (0 : ℚ)).getD i2 0 = 0
          rw [getD_replicate_elt]
          split <;> rfl) hi2⟩
    exact hinv.2 i j (by rw [hi]; norm_num) (by rw [hj]; norm_num) hsame

/-- Witness for `greedyNeverDoubleClaimsGroundTruth`: two detections, two
ground truths, each detection claiming its own ground truth. -/
theorem greedyNeverDoubleClaimsGroundTruthWitness :
    ([boxA, boxB] : List Box).length = ([9/10, 1/5] : List ℚ).length
      ∧ (matchImageClass ovEq (1/2) [boxA, boxB] [9/10, 1/5]
          [boxA, boxB]).1.getD 0 0 = 1
      ∧ (0 : ℕ) = 0 :=
  ⟨rfl, by norm_num [calculateMap, accumulateBatches, accBatch, accClsStep, processBatchClass, maskSelect, matchImageClass, argsortDesc, insertDesc, argmaxIdx, greedyStep, iouMatrix, perClassAP, apIntegrate, apStep, recallThresholds, precisionOf, recallOf, cumTP, cumFP, rankedTP, flatLabels, flatScores, cumsum, npMax, npMean, fdiv, FVal.add, FVal.divF, FVal.fge, FVal.fgt, FVal.fmax, foldlMO, mapMO, initAcc, ovEq, ovThree, boxA, boxB, boxC, batchB, batchThreeGt, batchOutOfRange, extendBatch, List.range_succ, List.replicate_succ, List.set],
    greedyNeverDoubleClaimsGroundTruth ovEq (1/2) [boxA, boxB] [9/10, 1/5]
      [boxA, boxB] rfl 0 0 (by norm_num [calculateMap, accumulateBatches, accBatch, accClsStep, processBatchClass, maskSelect, matchImageClass, argsortDesc, insertDesc, argmaxIdx, greedyStep, iouMatrix, perClassAP, apIntegrate, apStep, recallThresholds, precisionOf, recallOf, cumTP, cumFP, rankedTP, flatLabels, flatScores, cumsum, npMax, npMean, fdiv, FVal.add, FVal.divF, FVal.fge, FVal.fgt, FVal.fmax, foldlMO, mapMO, initAcc, ovEq, ovThree, boxA, boxB, boxC, batchB, batchThreeGt, batchOutOfRange, extendBatch, List.range_succ, List.replicate_succ, List.set]) (by norm_num [calculateMap, accumulateBatches, accBatch, accClsStep, processBatchClass, maskSelect, matchImageClass, argsortDesc, insertDesc, argmaxIdx, greedyStep, iouMatrix, perClassAP, apIntegrate, apStep, recallThresholds, precisionOf, recallOf, cumTP, cumFP, rankedTP, flatLabels, flatScores, cumsum, npMax, npMean, fdiv, FVal.add, FVal.divF, FVal.fge, FVal.fgt, FVal.fmax, foldlMO, mapMO, initAcc, ovEq, ovThree, boxA, boxB, boxC, batchB, batchThreeGt, batchOutOfRange, extendBatch, List.range_succ, List.replicate_succ, List.set]) rfl⟩

/-- Claim C7 counterexample.  With `num_classes = 0` the computation
completes (`np.mean` of an empty array only warns), but the resulting
`mean_ap` is `0/0 = nan`, which is not a number in [0, 1]; so "every
completed run has mAP in [0, 1]" fails as stated. -/
theorem mapNanAtZeroClasses :
    calculateMap ovEq [] 0 (1/2) = some (FVal.nan, [])
      ∧ ¬ FVal.inUnit FVal.nan := by
  constructor
  · norm_num [calculateMap, accumulateBatches, accBatch, accClsStep, processBatchClass, maskSelect, matchImageClass, argsortDesc, insertDesc, argmaxIdx, greedyStep, iouMatrix, perClassAP, apIntegrate, apStep, recallThresholds, precisionOf, recallOf, cumTP, cumFP, rankedTP, flatLabels, flatScores, cumsum, npMax, npMean, fdiv, FVal.add, FVal.divF, FVal.fge, FVal.fgt, FVal.fmax, foldlMO, mapMO, initAcc, ovEq, ovThree, boxA, boxB, boxC, batchB, batchThreeGt, batchOutOfRange, extendBatch, List.range_succ, List.replicate_succ, List.set]
  · rintro ⟨q, hq, -⟩
    cases hq

/-- Claim C7 as amended: for `num_classes ≥ 1`, on every input on which
`calculate_map` completes, every per-class AP value is a finite rational in
[0, 1] and the resulting mAP is a finite rational in [0, 1]. -/
theorem apAndMapInUnitInterval (ov : Box → Box → ℚ) (batches : List Batch)
    (n : ℕ) (thr : ℚ) (m : FVal) (aps : List FVal) (hn : 1 ≤ n)
    (h : calculateMap ov batches n thr = some (m, aps)) :
    (∀ a ∈ aps, FVal.inUnit a) ∧ FVal.inUnit m := by
  obtain ⟨st, hacc, haps, rfl⟩ :=
    calculateMap_some_elim ov batches n thr m aps h
  have hunit : ∀ a ∈ aps, FVal.inUnit a := by
    intro a ha
    obtain ⟨cls, hclsmem, hf⟩ := mapMO_some_mem _ _ _ haps a ha
    have hcls : cls < n := List.mem_range.mp hclsmem
    have hfacts := classSlot_facts ov thr n batches st hacc cls hcls
    exact perClassAP_some_unit _ _ (fun p hp => (hfacts.2.1 p hp).2) a hf
  refine ⟨hunit, npMean_unit aps hunit ?_⟩
  rw [mapMO_some_length _ _ _ haps, List.length_range]
  exact hn

/-- Witness for `apAndMapInUnitInterval`: the completing one-class run with
AP 4/11. -/
theorem apAndMapInUnitIntervalWitness :
    (1 ≤ 1)
      ∧ (∀ a ∈ [FVal.val (4/11)], FVal.inUnit a)
      ∧ FVal.inUnit (FVal.val (4/11)) :=
  ⟨le_refl 1,
    apAndMapInUnitInterval ovEq [batchThreeGt] 1 (1/2) (FVal.val (4/11))
      [FVal.val (4/11)] (le_refl 1) (by norm_num [calculateMap, accumulateBatches, accBatch, accClsStep, processBatchClass, maskSelect, matchImageClass, argsortDesc, insertDesc, argmaxIdx, greedyStep, iouMatrix, perClassAP, apIntegrate, apStep, recallThresholds, precisionOf, recallOf, cumTP, cumFP, rankedTP, flatLabels, flatScores, cumsum, npMax, npMean, fdiv, FVal.add, FVal.divF, FVal.fge, FVal.fgt, FVal.fmax, foldlMO, mapMO, initAcc, ovEq, ovThree, boxA, boxB, boxC, batchB, batchThreeGt, batchOutOfRange, extendBatch, List.range_succ, List.replicate_succ, List.set])⟩

/-- Claim C8.  With at least one class and an empty batch list, the
per-class aggregation starts by unpacking `labels, scores =
zip(*tp_fp_labels)` on an empty list of per-image pairs, which raises
`ValueError`; `calculate_map` raises instead of returning an mAP result. -/
theorem emptyBatchListRaises (ov : Box → Box → ℚ) (thr : ℚ) (n : ℕ)
    (hn : 1 ≤ n) : calculateMap ov [] n thr = none := by
  obtain ⟨k, rfl⟩ : ∃ k, n = k + 1 := ⟨n - 1, by omega⟩
  rw [calculateMap]
  have hacc : accumulateBatches ov thr (k + 1) [] = some (initAcc (k + 1)) := rfl
  rw [hacc]
  have hf : perClassAP ((initAcc (k + 1)).numExamplesPerClass.getD 0 0)
      ((initAcc (k + 1)).pairsByClass.getD 0 []) = none := by
    rw [initAcc]
    simp only
    rw [getD_replicate_elt, getD_replicate_elt]
    simp [perClassAP]
  rw [List.range_succ_eq_map]
  simp only [mapMO_cons_bind, hf, Option.none_bind]

/-- Witness for `emptyBatchListRaises` at one class. -/
theorem emptyBatchListRaisesWitness :
    (1 ≤ 1) ∧ calculateMap ovEq [] 1 (1/2) = none :=
  ⟨le_refl 1, emptyBatchListRaises ovEq (1/2) 1 (le_refl 1)⟩

/-- Claim C9.  For a class slot produced by the accumulation phase, at every
in-range rank `i` (0-based) the precision denominator
`cum_true_positives + cum_false_positives` equals `i + 1` (the 1-based
rank) and is therefore at least 1; since the denominator is nonzero,
`np.divide` never divides by zero in the precision computation. -/
theorem precisionDenominatorEqualsRank (ov : Box → Box → ℚ) (thr : ℚ)
    (batches : List Batch) (n cls : ℕ) (st : AccState)
    (hacc : accumulateBatches ov thr n batches = some st) (hcls : cls < n)
    (i : ℕ) (hi : i < (cumTP (st.pairsByClass.getD cls [])).length) :
    (cumTP (st.pairsByClass.getD cls [])).getD i 0
        + (cumFP (st.pairsByClass.getD cls [])).getD i 0 = (i : ℚ) + 1
      ∧ (1 : ℚ) ≤ (cumTP (st.pairsByClass.getD cls [])).getD i 0
        + (cumFP (st.pairsByClass.getD cls [])).getD i 0 := by
  have hr : i < (rankedTP (st.pairsByClass.getD cls [])).length := by
    rw [cumTP, cumsum_length] at hi
    exact hi
  have hid := cum_rank_identity (st.pairsByClass.getD cls []) i hr
  refine ⟨hid, ?_⟩
  rw [hid]
  have hnn := (Nat.cast_nonneg i : (0 : ℚ) ≤ i)
  linarith

/-- Witness for `precisionDenominatorEqualsRank`: the one-class run with a
single detection; at rank 0 the denominator is 1. -/
theorem precisionDenominatorEqualsRankWitness :
    accumulateBatches ovEq (1/2) 1 [batchThreeGt]
        = some { pairsByClass := [[([1], [9/10])]], numExamplesPerClass := [3] }
      ∧ (0 : ℕ) < (cumTP (({ pairsByClass := [[([1], [9/10])]], numExamplesPerClass := [3] } : AccState).pairsByClass.getD 0 [])).length
      ∧ (cumTP (({ pairsByClass := [[([1], [9/10])]], numExamplesPerClass := [3] } : AccState).pairsByClass.getD 0 [])).getD 0 0
          + (cumFP (({ pairsByClass := [[([1], [9/10])]], numExamplesPerClass := [3] } : AccState).pairsByClass.getD 0 [])).getD 0 0
          = ((0 : ℕ) : ℚ) + 1 :=
  ⟨by norm_num [calculateMap, accumulateBatches, accBatch, accClsStep, processBatchClass, maskSelect, matchImageClass, argsortDesc, insertDesc, argmaxIdx, greedyStep, iouMatrix, perClassAP, apIntegrate, apStep, recallThresholds, precisionOf, recallOf, cumTP, cumFP, rankedTP, flatLabels, flatScores, cumsum, npMax, npMean, fdiv, FVal.add, FVal.divF, FVal.fge, FVal.fgt, FVal.fmax, foldlMO, mapMO, initAcc, ovEq, ovThree, boxA, boxB, boxC, batchB, batchThreeGt, batchOutOfRange, extendBatch, List.range_succ, List.replicate_succ, List.set],
    by norm_num [calculateMap, accumulateBatches, accBatch, accClsStep, processBatchClass, maskSelect, matchImageClass, argsortDesc, insertDesc, argmaxIdx, greedyStep, iouMatrix, perClassAP, apIntegrate, apStep, recallThresholds, precisionOf, recallOf, cumTP, cumFP, rankedTP, flatLabels, flatScores, cumsum, npMax, npMean, fdiv, FVal.add, FVal.divF, FVal.fge, FVal.fgt, FVal.fmax, foldlMO, mapMO, initAcc, ovEq, ovThree, boxA, boxB, boxC, batchB, batchThreeGt, batchOutOfRange, extendBatch, List.range_succ, List.replicate_succ, List.set],
    (precisionDenominatorEqualsRank ovEq (1/2) [batchThreeGt] 1 0
      { pairsByClass := [[([1], [9/10])]], numExamplesPerClass := [3] }
      (by norm_num [calculateMap, accumulateBatches, accBatch, accClsStep, processBatchClass, maskSelect, matchImageClass, argsortDesc, insertDesc, argmaxIdx, greedyStep, iouMatrix, perClassAP, apIntegrate, apStep, recallThresholds, precisionOf, recallOf, cumTP, cumFP, rankedTP, flatLabels, flatScores, cumsum, npMax, npMean, fdiv, FVal.add, FVal.divF, FVal.fge, FVal.fgt, FVal.fmax, foldlMO, mapMO, initAcc, ovEq, ovThree, boxA, boxB, boxC, batchB, batchThreeGt, batchOutOfRange, extendBatch, List.range_succ, List.replicate_succ, List.set]) (by norm_num)
      0 (by norm_num [calculateMap, accumulateBatches, accBatch, accClsStep, processBatchClass, maskSelect, matchImageClass, argsortDesc, insertDesc, argmaxIdx, greedyStep, iouMatrix, perClassAP, apIntegrate, apStep, recallThresholds, precisionOf, recallOf, cumTP, cumFP, rankedTP, flatLabels, flatScores, cumsum, npMax, npMean, fdiv, FVal.add, FVal.divF, FVal.fge, FVal.fgt, FVal.fmax, foldlMO, mapMO, initAcc, ovEq, ovThree, boxA, boxB, boxC, batchB, batchThreeGt, batchOutOfRange, extendBatch, List.range_succ, List.replicate_succ, List.set])).1⟩

/-- Claim C10.  For a class slot produced by the accumulation phase whose
total ground-truth count `D = num_examples_per_class[cls]` is positive,
every cumulative true-positive value is at most `D`, and therefore every
recall entry `cum_tp / D` is a finite rational at most 1. -/
theorem cumTpBoundedByNumExamples (ov : Box → Box → ℚ) (thr : ℚ)
    (batches : List Batch) (n cls : ℕ) (st : AccState)
    (hacc : accumulateBatches ov thr n batches = some st) (hcls : cls < n)
    (hpos : 0 < st.numExamplesPerClass.getD cls 0) :
    (∀ i : ℕ, (cumTP (st.pairsByClass.getD cls [])).getD i 0
        ≤ ((st.numExamplesPerClass.getD cls 0 : ℕ) : ℚ))
      ∧ ∀ r ∈ recallOf (st.numExamplesPerClass.getD cls 0)
          (st.pairsByClass.getD cls []),
          ∃ q, r = FVal.val q ∧ q ≤ 1 := by
  have hfacts := classSlot_facts ov thr n batches st hacc cls hcls
  have h01 : ∀ x ∈ rankedTP (st.pairsByClass.getD cls []), x = 0 ∨ x = 1 :=
    rankedTP_mem01 _ (fun p hp => (hfacts.2.1 p hp).2)
  have hnn : ∀ x ∈ rankedTP (st.pairsByClass.getD cls []), (0 : ℚ) ≤ x := by
    intro x hx
    rcases h01 x hx with h | h <;> rw [h] <;> norm_num
  have hsum : (rankedTP (st.pairsByClass.getD cls [])).sum
      ≤ ((st.numExamplesPerClass.getD cls 0 : ℕ) : ℚ) := by
    rw [rankedTP_sum_eq _ (flat_lengths_eq _ (fun p hp => (hfacts.2.1 p hp).1))]
    exact hfacts.2.2.1
  have hDpos : (0 : ℚ) < ((st.numExamplesPerClass.getD cls 0 : ℕ) : ℚ) := by
    exact_mod_cast hpos
  constructor
  · intro i
    calc (cumTP (st.pairsByClass.getD cls [])).getD i 0
        ≤ (rankedTP (st.pairsByClass.getD cls [])).sum := by
          rw [cumTP]
          exact cumsum_getD_le_sum _ hnn i
      _ ≤ _ := hsum
  · intro r hr
    rw [recallOf] at hr
    obtain ⟨tp, htp, rfl⟩ := List.mem_map.mp hr
    have htpmem : tp ∈ cumsum (rankedTP (st.pairsByClass.getD cls [])) := by
      rw [cumTP] at htp
      exact htp
    have htple : tp ≤ ((st.numExamplesPerClass.getD cls 0 : ℕ) : ℚ) :=
      le_trans (cumsum_mem_le_sum _ hnn tp htpmem) hsum
    rw [fdiv, if_neg (by linarith)]
    refine ⟨tp / (st.numExamplesPerClass.getD cls 0 : ℕ), rfl, ?_⟩
    rw [div_le_one hDpos]
    exact htple

/-- Witness for `cumTpBoundedByNumExamples`: the one-class run with three
ground truths (`D = 3`); the single recall entry is `1/3 ≤ 1`. -/
theorem cumTpBoundedByNumExamplesWitness :
    accumulateBatches ovEq (1/2) 1 [batchThreeGt]
        = some { pairsByClass := [[([1], [9/10])]], numExamplesPerClass := [3] }
      ∧ (0 : ℕ) < ({ pairsByClass := [[([1], [9/10])]], numExamplesPerClass := [3] } : AccState).numExamplesPerClass.getD 0 0
      ∧ ∀ i : ℕ, (cumTP (({ pairsByClass := [[([1], [9/10])]], numExamplesPerClass := [3] } : AccState).pairsByClass.getD 0 [])).getD i 0
        ≤ ((({ pairsByClass := [[([1], [9/10])]], numExamplesPerClass := [3] } : AccState).numExamplesPerClass.getD 0 0 : ℕ) : ℚ) :=
  ⟨by norm_num [calculateMap, accumulateBatches, accBatch, accClsStep, processBatchClass, maskSelect, matchImageClass, argsortDesc, insertDesc, argmaxIdx, greedyStep, iouMatrix, perClassAP, apIntegrate, apStep, recallThresholds, precisionOf, recallOf, cumTP, cumFP, rankedTP, flatLabels, flatScores, cumsum, npMax, npMean, fdiv, FVal.add, FVal.divF, FVal.fge, FVal.fgt, FVal.fmax, foldlMO, mapMO, initAcc, ovEq, ovThree, boxA, boxB, boxC, batchB, batchThreeGt, batchOutOfRange, extendBatch, List.range_succ, List.replicate_succ, List.set],
    by norm_num,
    (cumTpBoundedByNumExamples ovEq (1/2) [batchThreeGt] 1 0
      { pairsByClass := [[([1], [9/10])]], numExamplesPerClass := [3] }
      (by norm_num [calculateMap, accumulateBatches, accBatch, accClsStep, processBatchClass, maskSelect, matchImageClass, argsortDesc, insertDesc, argmaxIdx, greedyStep, iouMatrix, perClassAP, apIntegrate, apStep, recallThresholds, precisionOf, recallOf, cumTP, cumFP, rankedTP, flatLabels, flatScores, cumsum, npMax, npMean, fdiv, FVal.add, FVal.divF, FVal.fge, FVal.fgt, FVal.fmax, foldlMO, mapMO, initAcc, ovEq, ovThree, boxA, boxB, boxC, batchB, batchThreeGt, batchOutOfRange, extendBatch, List.range_succ, List.replicate_succ, List.set]) (by norm_num) (by norm_num)).1⟩
